import Mathlib

/-!
Verification development for the go-sync-fs repository: a chained, tiered
filesystem engine (chain-of-responsibility reads with back-propagation,
fan-out writes, LRU cache eviction under a byte budget, an advisory lock
table, a FUSE adapter doing read-modify-write) shallowly embedded in Lean.

The embedding follows the lock-aware revision of the sources: the chain
engine of src/unnamed/part_000 (ChainFS with Lock/Unlock/IsLocked), the
LocalFS of the second segment of src/server_fs.go, the configuration
validation of src/config.go, and the FUSE adapter segment of src/fuse.go
containing FileHandle.Write (lines 503-558) and File.SetAttr (620-648).

Modelling conventions:
  * Go byte slices are `List Nat`; Go `os.FileMode` is a `Nat` (0o644 = 420).
  * A Go `error` return is `Option String` (`none` = nil = success).
  * Functions returning `([]byte, error)` are modelled as the pair
    `Option String × Content`: Go callers treat the call as successful
    exactly when the error component is nil.
  * `time.Now()` is a monotone counter stored in the state (`clock`).
  * The OS directory tree behind a tier is a partial map `Path → Option
    Content`; directories and `MkdirAll` are not modelled (no claim
    depends on them); `os.Remove` and the file-write syscalls can fail,
    driven by failure oracles in `Env`.
-/

namespace GoSyncFS

abbrev Path := String
abbrev Content := List Nat
abbrev Mode := Nat

/-- LockType from src/server_fs.go (ReadLock, WriteLock, ExclusiveLock). -/
inductive LockType where
  | read
  | write
  | exclusive
deriving DecidableEq, Repr

/-- FileSystemRole from src/server_fs.go (RoleMain, RoleCache). -/
inductive Role where
  | main
  | cache
deriving DecidableEq, Repr

/-- CacheEntry from src/server_fs.go: Path, Size, LastUsed. -/
structure CacheEntry where
  path : Path
  size : Nat
  lastUsed : Nat
deriving DecidableEq, Repr

/-- FileLock from src/server_fs.go: LockType, ProcessID, CreatedAt
(the Path field is the map key and is kept implicit here). -/
structure FileLock where
  lockType : LockType
  processId : Nat
  createdAt : Nat
deriving DecidableEq, Repr

/-!
## Abstract tiers and the chain engine (src/unnamed/part_000)

`ChainFS` holds a `[]ServerFS`; `ServerFS` is an interface, so a tier in
the chain model is an arbitrary implementation: a state type `σ` together
with the capability flags and the state-passing operations the chain
calls (`Read`, `Write`, `IsLocked`, `GetFeatures`).  Reads may change the
tier state (a cache tier touches its LRU list); `IsLocked` is a pure
query in the source (it only reads the lock map).
-/

/-- One ServerFS implementation over state type `σ`: the capability
flags returned by GetFeatures plus the operations the chain invokes. -/
structure TierM (σ : Type) where
  canUpdate : Bool
  canDelete : Bool
  canLock : Bool
  readOp : σ → Path → (Option String × Content) × σ
  writeOp : σ → Path → Content → Mode → Option String × σ
  isLockedOp : σ → Path → Option String × (Bool × LockType)

/-- A tier in a chain: its implementation paired with its current state. -/
abbrev Tier (σ : Type) := TierM σ × σ

/-- A write issued to a tier of the chain, recorded so that theorems can
speak about which tiers were written, with what content and mode. -/
structure WEvent where
  tier : Nat
  path : Path
  content : Content
  mode : Mode
deriving DecidableEq, Repr

/-- ChainFS.findFirstLockableFS: the first filesystem whose features
declare CanLock. -/
def findFirstLockable {σ : Type} (ts : List (Tier σ)) : Option (Tier σ) :=
  ts.find? (fun t => t.1.canLock)

/-- ChainFS.IsLocked: delegate to the first lockable filesystem; error if
none supports locking. -/
def chainIsLocked {σ : Type} (ts : List (Tier σ)) (p : Path) :
    Option String × (Bool × LockType) :=
  match findFirstLockable ts with
  | none => (some "no filesystem in the chain supports locking", (false, .read))
  | some t => t.1.isLockedOp t.2 p

/-- The guard at the top of ChainFS.Read (src/unnamed/part_000 lines
108-113): true when IsLocked returned no error, reported locked, and the
lock type is WriteLock or ExclusiveLock. -/
def readLockBlocked {σ : Type} (ts : List (Tier σ)) (p : Path) : Bool :=
  match chainIsLocked ts p with
  | (none, (locked, lt)) => locked && (lt = .write || lt = .exclusive)
  | (some _, _) => false

/-- The guard at the top of ChainFS.Write and ChainFS.Delete
(src/unnamed/part_000 lines 148-150): true when IsLocked returned no
error and reported the path locked (any lock type). -/
def writeLockBlocked {σ : Type} (ts : List (Tier σ)) (p : Path) : Bool :=
  match chainIsLocked ts p with
  | (none, (locked, _)) => locked
  | (some _, _) => false

/-- The read loop of ChainFS.Read: try each filesystem in order, stop at
the first success, remember the last error.  Returns the Go result pair,
the updated tiers (each consulted tier has had its `readOp` state change
applied), and the index of the tier that succeeded, if any. -/
def walkRead {σ : Type} (p : Path) :
    List (Tier σ) → Option String → (Option String × Content) × List (Tier σ) × Option Nat
  | [], lastErr => ((lastErr, []), [], none)
  | t :: ts, _ =>
    match t.1.readOp t.2 p with
    | ((none, c), st) => ((none, c), (t.1, st) :: ts, some 0)
    | ((some e, _), st) =>
      let r := walkRead p ts (some e)
      (r.1, (t.1, st) :: r.2.1, r.2.2.map (· + 1))

/-- The body of one iteration of ChainFS.propagateContent: if tier `j`
exists and declares CanUpdate, attempt the write (ignoring its error) and
record the event. -/
def writeTierAt {σ : Type} (ts : List (Tier σ)) (j : Nat) (p : Path)
    (c : Content) (m : Mode) : List (Tier σ) × List WEvent :=
  match ts[j]? with
  | none => (ts, [])
  | some t =>
    if t.1.canUpdate then
      let r := t.1.writeOp t.2 p c m
      (ts.set j (t.1, r.2), [⟨j, p, c, m⟩])
    else (ts, [])

/-- ChainFS.propagateContent: for i := foundIndex-1 down to 0, write the
content with mode 0644 to tier i when it declares CanUpdate, ignoring
errors.  The argument is the found index; indices are processed in
decreasing order exactly as in the source loop. -/
def propLoop {σ : Type} (p : Path) (c : Content) :
    List (Tier σ) → Nat → List (Tier σ) × List WEvent
  | ts, 0 => (ts, [])
  | ts, j + 1 =>
    let r := writeTierAt ts j p c 420
    let r' := propLoop p c r.1 j
    (r'.1, r.2 ++ r'.2)

/-- ChainFS.Read (src/unnamed/part_000 lines 104-129): lock guard, then
the chain walk, then back-propagation of the found content. -/
def chainRead {σ : Type} (ts : List (Tier σ)) (p : Path) :
    (Option String × Content) × List (Tier σ) × List WEvent :=
  if readLockBlocked ts p then
    ((some "file is locked for writing", []), ts, [])
  else
    match walkRead p ts none with
    | ((none, c), ts', some i) =>
      let r := propLoop p c ts' i
      ((none, c), r.1, r.2)
    | (res, ts', _) => (res, ts', [])

/-- The fan-out loop of ChainFS.Write: every tier declaring CanUpdate is
written in index order; the last error is remembered; `i` is the index of
the head tier. -/
def fanoutWrite {σ : Type} (p : Path) (c : Content) (m : Mode) :
    List (Tier σ) → Nat → Option String × List (Tier σ) × List WEvent
  | [], _ => (none, [], [])
  | t :: ts, i =>
    if t.1.canUpdate then
      let w := t.1.writeOp t.2 p c m
      let r := fanoutWrite p c m ts (i + 1)
      (match r.1 with
       | some e => some e
       | none => w.1, (t.1, w.2) :: r.2.1, ⟨i, p, c, m⟩ :: r.2.2)
    else
      let r := fanoutWrite p c m ts (i + 1)
      (r.1, (t.1, t.2) :: r.2.1, r.2.2)

/-- ChainFS.Write (src/unnamed/part_000 lines 143-162): lock guard, then
fan-out to every tier that supports updates, returning the last error. -/
def chainWrite {σ : Type} (ts : List (Tier σ)) (p : Path) (c : Content)
    (m : Mode) : Option String × List (Tier σ) × List WEvent :=
  if writeLockBlocked ts p then
    (some "file is locked", ts, [])
  else fanoutWrite p c m ts 0

/-!
## Observables of a chain used to state the chain theorems
-/

/-- The Go result of calling Read directly on one tier in its current
state (the state change is discarded). -/
def readsAt {σ : Type} (t : Tier σ) (p : Path) : Option String × Content :=
  (t.1.readOp t.2 p).1

/-- Index and content of the first tier whose read succeeds, each tier
read in its current state. -/
def firstHit {σ : Type} (p : Path) : List (Tier σ) → Option (Nat × Content)
  | [] => none
  | t :: ts =>
    match readsAt t p with
    | (none, c) => some (0, c)
    | (some _, _) => (firstHit p ts).map (fun x => (x.1 + 1, x.2))

/-- The implementations of the tiers of a chain (their states dropped). -/
def tierMs {σ : Type} (ts : List (Tier σ)) : List (TierM σ) :=
  ts.map Prod.fst

/-- Whether the tier at index `j` exists and declares CanUpdate. -/
def canUpdateAt {σ : Type} (ts : List (Tier σ)) (j : Nat) : Bool :=
  (((tierMs ts)[j]?).map (·.canUpdate)).getD false

/-- The back-propagation writes the spec calls for after a hit at index
`i`: content written with mode 0644 to every CanUpdate tier with index
below `i`, in the decreasing order of the source loop. -/
def propEvents {σ : Type} (ts : List (Tier σ)) (p : Path) (c : Content)
    (i : Nat) : List WEvent :=
  ((List.range i).reverse.filter (fun j => canUpdateAt ts j)).map
    (fun j => ⟨j, p, c, 420⟩)

lemma canUpdateAt_congr {σ : Type} {ts ts' : List (Tier σ)}
    (h : tierMs ts = tierMs ts') (j : Nat) :
    canUpdateAt ts j = canUpdateAt ts' j := by
  simp [canUpdateAt, h]

lemma propEvents_congr {σ : Type} {ts ts' : List (Tier σ)}
    (h : tierMs ts = tierMs ts') (p : Path) (c : Content) (i : Nat) :
    propEvents ts p c i = propEvents ts' p c i := by
  unfold propEvents
  congr 1
  exact List.filter_congr (fun j _ => by rw [canUpdateAt_congr h])

lemma walkRead_hit {σ : Type} (p : Path) :
    ∀ (ts : List (Tier σ)) (le : Option String) (i : Nat) (c : Content),
      firstHit p ts = some (i, c) →
      ∃ ts', walkRead p ts le = ((none, c), ts', some i) ∧
        tierMs ts' = tierMs ts := by
  intro ts
  induction ts with
  | nil => intro le i c h; simp [firstHit] at h
  | cons t ts ih =>
    intro le i c h
    rcases h1 : t.1.readOp t.2 p with ⟨⟨e, c0⟩, st⟩
    cases e with
    | none =>
      have h2 : ((0 : Nat), c0) = (i, c) := by
        have h' : firstHit p (t :: ts) = some (0, c0) := by
          simp [firstHit, readsAt, h1]
        exact Option.some.inj (h'.symm.trans h)
      rw [Prod.mk.injEq] at h2
      obtain ⟨hi, hc⟩ := h2
      subst hi; subst hc
      exact ⟨(t.1, st) :: ts, by simp [walkRead, h1], by simp [tierMs]⟩
    | some e0 =>
      have h' : (firstHit p ts).map (fun x => (x.1 + 1, x.2)) = some (i, c) := by
        simpa [firstHit, readsAt, h1] using h
      rcases Option.map_eq_some'.mp h' with ⟨⟨i0, c0⟩, hfh, heq⟩
      simp only [Prod.mk.injEq] at heq
      obtain ⟨hi, hc⟩ := heq
      subst hi; subst hc
      rcases ih (some e0) i0 c0 hfh with ⟨ts', hwalk, hms⟩
      refine ⟨(t.1, st) :: ts', ?_, by simpa [tierMs] using hms⟩
      simp [walkRead, h1, hwalk]

lemma walkRead_miss {σ : Type} (p : Path) :
    ∀ (ts : List (Tier σ)) (le : Option String),
      firstHit p ts = none →
      ∃ ts' e, walkRead p ts le = ((e, []), ts', none) ∧
        tierMs ts' = tierMs ts ∧
        (∀ tl, ts.getLast? = some tl → e = (readsAt tl p).1) ∧
        (ts = [] → e = le) := by
  intro ts
  induction ts with
  | nil =>
    intro le _
    exact ⟨[], le, by simp [walkRead], by simp [tierMs], by simp, fun _ => rfl⟩
  | cons t ts ih =>
    intro le h
    rcases h1 : t.1.readOp t.2 p with ⟨⟨e, c0⟩, st⟩
    cases e with
    | none => simp [firstHit, readsAt, h1] at h
    | some e0 =>
      have hfh : firstHit p ts = none := by
        simpa [firstHit, readsAt, h1] using h
      rcases ih (some e0) hfh with ⟨ts', e', hwalk, hms, hlast, hnil⟩
      refine ⟨(t.1, st) :: ts', e', by simp [walkRead, h1, hwalk],
        by simpa [tierMs] using hms, ?_, by simp⟩
      intro tl htl
      cases ts with
      | nil =>
        simp at htl
        subst htl
        simpa [readsAt, h1] using hnil rfl
      | cons t2 ts2 =>
        exact hlast tl (by simpa using htl)

lemma set_self {α : Type _} :
    ∀ (l : List α) (j : Nat) (v : α), l[j]? = some v → l.set j v = l
  | [], _, _ => by simp
  | a :: l, 0, v => by intro h; simp at h; simp [h]
  | a :: l, j + 1, v => by
      intro h
      have h' : l[j]? = some v := by simpa using h
      show a :: l.set j v = a :: l
      rw [set_self l j v h']

lemma writeTierAt_events {σ : Type} (ts : List (Tier σ)) (j : Nat)
    (p : Path) (c : Content) (m : Mode) :
    tierMs (writeTierAt ts j p c m).1 = tierMs ts ∧
    (writeTierAt ts j p c m).2 =
      (if canUpdateAt ts j then [⟨j, p, c, m⟩] else []) := by
  unfold writeTierAt canUpdateAt
  rcases h : ts[j]? with _ | t
  · simp [tierMs, h]
  · by_cases hu : t.1.canUpdate
    · refine ⟨?_, by simp [tierMs, h, hu]⟩
      simp only [hu, if_true]
      unfold tierMs
      rw [List.map_set]
      exact set_self _ _ _ (by simp [h])
    · simp [tierMs, h, hu]

lemma propLoop_events {σ : Type} (p : Path) (c : Content) :
    ∀ (i : Nat) (ts : List (Tier σ)),
      tierMs (propLoop p c ts i).1 = tierMs ts ∧
      (propLoop p c ts i).2 = propEvents ts p c i := by
  intro i
  induction i with
  | zero => intro ts; simp [propLoop, propEvents]
  | succ j ih =>
    intro ts
    obtain ⟨hms, hev⟩ := writeTierAt_events ts j p c 420
    obtain ⟨hms', hev'⟩ := ih (writeTierAt ts j p c 420).1
    constructor
    · simp [propLoop, hms', hms]
    · have hrange : (List.range (j + 1)).reverse = j :: (List.range j).reverse := by
        simp [List.range_succ]
      simp only [propLoop, hev, hev']
      rw [propEvents_congr hms p c j, propEvents, propEvents, hrange]
      by_cases hu : canUpdateAt ts j <;> simp [hu]

/-- Claim C1 (amended): provided the read-lock guard at the top of
ChainFS.Read does not fire, Read consults the tiers in index order and
returns the content of the first tier whose read succeeds, issuing
propagation writes of that content with mode 0644 to exactly the
CanUpdate tiers with smaller index (any errors of those writes ignored);
and if every tier's read fails, Read returns the last tier's error. -/
theorem chainRead_first_hit_propagates {σ : Type} (ts : List (Tier σ))
    (p : Path) (hlock : readLockBlocked ts p = false) :
    (∀ i c, firstHit p ts = some (i, c) →
        (chainRead ts p).1 = (none, c) ∧
        (chainRead ts p).2.2 = propEvents ts p c i) ∧
    (firstHit p ts = none → ∀ tl, ts.getLast? = some tl →
        (chainRead ts p).1 = ((readsAt tl p).1, [])) := by
  constructor
  · intro i c hfh
    rcases walkRead_hit p ts none i c hfh with ⟨ts', hwalk, hms⟩
    obtain ⟨_, hev⟩ := propLoop_events p c i ts'
    unfold chainRead
    rw [hlock]
    simp only [Bool.false_eq_true, if_false, hwalk]
    simp [hev, propEvents_congr hms p c i]
  · intro hfh tl htl
    rcases walkRead_miss p ts none hfh with ⟨ts', e, hwalk, _, hlast, _⟩
    unfold chainRead
    rw [hlock]
    simp only [Bool.false_eq_true, if_false, hwalk]
    cases e with
    | none => simp [← hlast tl htl]
    | some e0 => simp [← hlast tl htl]

/-- A tier used to refute claim C1 as literally stated: it reports a
write lock on every path, and its read succeeds with content [65]. -/
def cexLockTier : TierM Unit where
  canUpdate := true
  canDelete := true
  canLock := true
  readOp := fun _ _ => ((none, [65]), ())
  writeOp := fun _ _ _ _ => (none, ())
  isLockedOp := fun _ _ => (none, (true, .write))

/-- Claim C1 counterexample: on a one-tier chain whose lock table holds a
write lock on path p, the first tier's read succeeds with content [65],
yet ChainFS.Read returns the lock error instead of that content and
issues no propagation write, contradicting the claim as stated. -/
theorem chainRead_lock_preempts_cex :
    firstHit "p" [(cexLockTier, ())] = some (0, [65]) ∧
    (chainRead [(cexLockTier, ())] "p").1 ≠ (none, [65]) ∧
    (chainRead [(cexLockTier, ())] "p").1 =
      (some "file is locked for writing", []) := by
  refine ⟨rfl, by decide, rfl⟩

/-- Witness tier: read fails, write succeeds, CanUpdate set. -/
def witFailTier : TierM Unit where
  canUpdate := true
  canDelete := false
  canLock := false
  readOp := fun _ _ => ((some "file does not exist", []), ())
  writeOp := fun _ _ _ _ => (none, ())
  isLockedOp := fun _ _ => (some "filesystem does not support locking", (false, .read))

/-- Witness tier: read succeeds with content [7]. -/
def witHitTier : TierM Unit where
  canUpdate := false
  canDelete := false
  canLock := false
  readOp := fun _ _ => ((none, [7]), ())
  writeOp := fun _ _ _ _ => (some "filesystem does not support updates", ())
  isLockedOp := fun _ _ => (some "filesystem does not support locking", (false, .read))

/-- The Go result of calling Write on the tier at index `j` in its
current state (none when the index is out of range, which cannot arise
for the indices the theorems quantify over). -/
def writeResAt {σ : Type} (ts : List (Tier σ)) (j : Nat) (p : Path)
    (c : Content) (m : Mode) : Option String :=
  ((ts[j]?).map (fun t => (t.1.writeOp t.2 p c m).1)).getD none

/-- Indices of the tiers declaring CanUpdate, in increasing order. -/
def capIdxs {σ : Type} (ts : List (Tier σ)) : List Nat :=
  (List.range ts.length).filter (fun j => canUpdateAt ts j)

lemma canUpdateAt_cons_zero {σ : Type} (t : Tier σ) (ts : List (Tier σ)) :
    canUpdateAt (t :: ts) 0 = t.1.canUpdate := by
  simp [canUpdateAt, tierMs]

lemma canUpdateAt_cons_succ {σ : Type} (t : Tier σ) (ts : List (Tier σ))
    (j : Nat) : canUpdateAt (t :: ts) (j + 1) = canUpdateAt ts j := by
  simp [canUpdateAt, tierMs]

lemma writeResAt_cons_succ {σ : Type} (t : Tier σ) (ts : List (Tier σ))
    (j : Nat) (p : Path) (c : Content) (m : Mode) :
    writeResAt (t :: ts) (j + 1) p c m = writeResAt ts j p c m := by
  simp [writeResAt]

lemma capIdxs_cons {σ : Type} (t : Tier σ) (ts : List (Tier σ)) :
    capIdxs (t :: ts) =
      (if t.1.canUpdate then [0] else []) ++ (capIdxs ts).map Nat.succ := by
  unfold capIdxs
  rw [List.length_cons, List.range_succ_eq_map, List.filter_cons]
  rw [canUpdateAt_cons_zero, List.filter_map]
  have hpt : ∀ j ∈ List.range ts.length,
      ((fun j => canUpdateAt (t :: ts) j) ∘ Nat.succ) j = canUpdateAt ts j :=
    fun j _ => canUpdateAt_cons_succ t ts j
  rw [List.filter_congr hpt]
  by_cases hu : t.1.canUpdate <;> simp [hu]

lemma canUpdateAt_lt {σ : Type} {ts : List (Tier σ)} {j : Nat}
    (h : canUpdateAt ts j = true) : j < ts.length := by
  by_contra hlt
  have : (tierMs ts)[j]? = none := by
    rw [List.getElem?_eq_none]
    simpa [tierMs] using Nat.le_of_not_lt hlt
  simp [canUpdateAt, this] at h

lemma mem_capIdxs {σ : Type} (ts : List (Tier σ)) (j : Nat) :
    j ∈ capIdxs ts ↔ canUpdateAt ts j = true := by
  simp only [capIdxs, List.mem_filter, List.mem_range]
  exact ⟨fun h => h.2, fun h => ⟨canUpdateAt_lt h, h⟩⟩

lemma fanout_events {σ : Type} (p : Path) (c : Content) (m : Mode) :
    ∀ (ts : List (Tier σ)) (i : Nat),
      (fanoutWrite p c m ts i).2.2 =
        (capIdxs ts).map (fun j => ⟨j + i, p, c, m⟩) := by
  intro ts
  induction ts with
  | nil => intro i; simp [fanoutWrite, capIdxs]
  | cons t ts ih =>
    intro i
    rw [capIdxs_cons]
    by_cases hu : t.1.canUpdate
    · simp [fanoutWrite, hu, ih (i + 1), Nat.succ_add_eq_add_succ,
        Function.comp]
    · simp [fanoutWrite, hu, ih (i + 1), Nat.succ_add_eq_add_succ,
        Function.comp]

lemma fanout_err_none_iff {σ : Type} (p : Path) (c : Content) (m : Mode) :
    ∀ (ts : List (Tier σ)) (i : Nat),
      (fanoutWrite p c m ts i).1 = none ↔
        ∀ j, canUpdateAt ts j = true → writeResAt ts j p c m = none := by
  intro ts
  induction ts with
  | nil =>
    intro i
    constructor
    · intro _ j hj
      exact absurd (canUpdateAt_lt hj) (by simp)
    · intro _; simp [fanoutWrite]
  | cons t ts ih =>
    intro i
    by_cases hu : t.1.canUpdate
    · rcases hr : (fanoutWrite p c m ts (i + 1)).1 with _ | e
      · have htail := (ih (i + 1)).mp hr
        simp only [fanoutWrite, hu, if_true, hr]
        constructor
        · intro hw j hj
          cases j with
          | zero => simpa [writeResAt] using hw
          | succ j =>
            rw [writeResAt_cons_succ]
            exact htail j (by simpa using (canUpdateAt_cons_succ t ts j) ▸ hj)
        · intro hall
          have := hall 0 (by simpa [canUpdateAt_cons_zero] using hu)
          simpa [writeResAt] using this
      · simp only [fanoutWrite, hu, if_true, hr]
        constructor
        · intro h; exact absurd h (by simp)
        · intro hall
          have : ∀ j, canUpdateAt ts j = true → writeResAt ts j p c m = none := by
            intro j hj
            have := hall (j + 1) (by simpa [canUpdateAt_cons_succ] using hj)
            simpa [writeResAt_cons_succ] using this
          rw [(ih (i + 1)).mpr this] at hr
          exact absurd hr (by simp)
    · simp only [fanoutWrite, hu, Bool.false_eq_true, if_false]
      rw [ih (i + 1)]
      constructor
      · intro htail j hj
        cases j with
        | zero => rw [canUpdateAt_cons_zero] at hj; exact absurd hj (by simp [hu])
        | succ j =>
          rw [writeResAt_cons_succ]
          exact htail j (by simpa [canUpdateAt_cons_succ] using hj)
      · intro hall j hj
        have := hall (j + 1) (by simpa [canUpdateAt_cons_succ] using hj)
        simpa [writeResAt_cons_succ] using this

lemma fanout_err_last {σ : Type} (p : Path) (c : Content) (m : Mode) :
    ∀ (ts : List (Tier σ)) (i : Nat) (e : String),
      (fanoutWrite p c m ts i).1 = some e →
      ∃ j, canUpdateAt ts j = true ∧ writeResAt ts j p c m = some e ∧
        ∀ k, j < k → canUpdateAt ts k = true → writeResAt ts k p c m = none := by
  intro ts
  induction ts with
  | nil => intro i e h; simp [fanoutWrite] at h
  | cons t ts ih =>
    intro i e h
    by_cases hu : t.1.canUpdate
    · rcases hr : (fanoutWrite p c m ts (i + 1)).1 with _ | e'
      · -- all later capable tiers succeeded; the head's own write failed
        have he : (t.1.writeOp t.2 p c m).1 = some e := by
          simpa [fanoutWrite, hu, hr] using h
        refine ⟨0, by simpa [canUpdateAt_cons_zero] using hu,
          by simpa [writeResAt] using he, ?_⟩
        intro k hk hck
        cases k with
        | zero => exact absurd hk (by simp)
        | succ k =>
          rw [writeResAt_cons_succ]
          exact (fanout_err_none_iff p c m ts (i + 1)).mp hr k
            (by simpa [canUpdateAt_cons_succ] using hck)
      · have he : e' = e := by simpa [fanoutWrite, hu, hr] using h
        subst he
        rcases ih (i + 1) e' hr with ⟨j, hcap, hres, hafter⟩
        refine ⟨j + 1, by simpa [canUpdateAt_cons_succ] using hcap,
          by simpa [writeResAt_cons_succ] using hres, ?_⟩
        intro k hk hck
        cases k with
        | zero => exact absurd hk (by simp)
        | succ k =>
          rw [writeResAt_cons_succ]
          exact hafter k (by omega) (by simpa [canUpdateAt_cons_succ] using hck)
    · have h' : (fanoutWrite p c m ts (i + 1)).1 = some e := by
        simpa [fanoutWrite, hu] using h
      rcases ih (i + 1) e h' with ⟨j, hcap, hres, hafter⟩
      refine ⟨j + 1, by simpa [canUpdateAt_cons_succ] using hcap,
        by simpa [writeResAt_cons_succ] using hres, ?_⟩
      intro k hk hck
      cases k with
      | zero => exact absurd hk (by simp)
      | succ k =>
        rw [writeResAt_cons_succ]
        exact hafter k (by omega) (by simpa [canUpdateAt_cons_succ] using hck)

/-- Claim C3 (amended): provided the lock guard at the top of
ChainFS.Write does not fire, the write is attempted on every tier with
CanUpdate (and only those), in index order; a failure on one tier does
not stop the remaining attempts; the call returns nil exactly when every
capable tier's write succeeded, and the error returned is the last
recorded failure (every capable tier after it succeeded). -/
theorem chainWrite_fanout {σ : Type} (ts : List (Tier σ)) (p : Path)
    (c : Content) (m : Mode) (hlock : writeLockBlocked ts p = false) :
    (chainWrite ts p c m).2.2 = (capIdxs ts).map (fun j => ⟨j, p, c, m⟩) ∧
    (∀ j, j ∈ capIdxs ts ↔ canUpdateAt ts j = true) ∧
    ((chainWrite ts p c m).1 = none ↔
      ∀ j, canUpdateAt ts j = true → writeResAt ts j p c m = none) ∧
    (∀ e, (chainWrite ts p c m).1 = some e →
      ∃ j, canUpdateAt ts j = true ∧ writeResAt ts j p c m = some e ∧
        ∀ k, j < k → canUpdateAt ts k = true →
          writeResAt ts k p c m = none) := by
  have hcw : chainWrite ts p c m = fanoutWrite p c m ts 0 := by
    unfold chainWrite
    rw [hlock]
    simp
  refine ⟨?_, mem_capIdxs ts, ?_, ?_⟩
  · rw [hcw, fanout_events]
    simp
  · rw [hcw]
    exact fanout_err_none_iff p c m ts 0
  · intro e he
    exact fanout_err_last p c m ts 0 e (by rw [hcw] at he; exact he)

/-- A tier used to refute claims C3 and C10 as literally stated: its
lock table reports a read lock on every path.  Its write succeeds and it
declares CanUpdate. -/
def cexReadLockTier : TierM Unit where
  canUpdate := true
  canDelete := false
  canLock := true
  readOp := fun _ _ => ((some "file does not exist", []), ())
  writeOp := fun _ _ _ _ => (none, ())
  isLockedOp := fun _ _ => (none, (true, .read))

/-- Claim C3 counterexample: on a one-tier chain whose first tier holds a
read lock on path p, the tier declares CanUpdate and its write would
succeed, yet ChainFS.Write attempts no tier write and returns a lock
error, contradicting the claim as stated (no capable tier failed, yet an
error is returned and no write is attempted). -/
theorem chainWrite_lock_preempts_cex :
    cexReadLockTier.canUpdate = true ∧
    writeResAt [(cexReadLockTier, ())] 0 "p" [1] 420 = none ∧
    (chainWrite [(cexReadLockTier, ())] "p" [1] 420).1 = some "file is locked" ∧
    (chainWrite [(cexReadLockTier, ())] "p" [1] 420).2.2 = [] := by
  exact ⟨rfl, rfl, rfl, rfl⟩

/-- Witness tier for C3 whose write fails. -/
def witBadWriteTier : TierM Unit where
  canUpdate := true
  canDelete := false
  canLock := false
  readOp := fun _ _ => ((some "file does not exist", []), ())
  writeOp := fun _ _ _ _ => (some "disk full", ())
  isLockedOp := fun _ _ => (some "filesystem does not support locking", (false, .read))

/-- Witness for the amended claim C3 on the concrete chain
[witBadWriteTier, witHitTier, witFailTier]: tiers 0 and 2 are capable and
attempted, tier 0 fails, so the fan-out returns the last failure, which
is tier 0's error here. -/
theorem chainWrite_fanout_witness :
    (chainWrite [(witBadWriteTier, ()), (witHitTier, ()), (witFailTier, ())]
      "f" [3] 420).2.2 = [⟨0, "f", [3], 420⟩, ⟨2, "f", [3], 420⟩] ∧
    (chainWrite [(witBadWriteTier, ()), (witHitTier, ()), (witFailTier, ())]
      "f" [3] 420).1 = some "disk full" := by
  have h := chainWrite_fanout
    [(witBadWriteTier, ()), (witHitTier, ()), (witFailTier, ())]
    "f" [3] 420 (by decide)
  refine ⟨by rw [h.1]; decide, ?_⟩
  rcases he : (chainWrite [(witBadWriteTier, ()), (witHitTier, ()), (witFailTier, ())]
      "f" [3] 420).1 with _ | e
  · have := (h.2.2.1.mp he) 0 (by decide)
    simp [writeResAt, witBadWriteTier] at this
  · rcases h.2.2.2 e he with ⟨j, hcap, hres, _⟩
    have hj : j = 0 ∨ j = 1 ∨ j = 2 := by
      have := canUpdateAt_lt hcap
      simp at this
      omega
    rcases hj with rfl | rfl | rfl
    · simpa [writeResAt, witBadWriteTier] using hres.symm
    · simp [canUpdateAt, tierMs, witHitTier] at hcap
    · simp [writeResAt, witFailTier] at hres

lemma fanout_no_capable {σ : Type} (p : Path) (c : Content) (m : Mode) :
    ∀ (ts : List (Tier σ)) (i : Nat), (∀ t ∈ ts, t.1.canUpdate = false) →
      fanoutWrite p c m ts i = (none, ts, []) := by
  intro ts
  induction ts with
  | nil => intro i _; rfl
  | cons t ts ih =>
    intro i hnone
    have hu : t.1.canUpdate = false := hnone t (by simp)
    have htail := ih (i + 1) (fun t' ht' => hnone t' (by simp [ht']))
    simp [fanoutWrite, hu, htail]

/-- Claim C10 (amended): provided the lock guard at the top of
ChainFS.Write does not fire, a write on a chain in which no tier declares
CanUpdate returns nil success, performs no tier write, and leaves every
tier state unchanged. -/
theorem chainWrite_no_capable_tiers {σ : Type} (ts : List (Tier σ))
    (p : Path) (c : Content) (m : Mode)
    (hlock : writeLockBlocked ts p = false)
    (hnone : ∀ t ∈ ts, t.1.canUpdate = false) :
    (chainWrite ts p c m).1 = none ∧
    (chainWrite ts p c m).2.2 = [] ∧
    (chainWrite ts p c m).2.1 = ts := by
  have hcw : chainWrite ts p c m = fanoutWrite p c m ts 0 := by
    unfold chainWrite
    rw [hlock]
    simp
  rw [hcw, fanout_no_capable p c m ts 0 hnone]
  exact ⟨rfl, rfl, rfl⟩

/-- Claim C10 counterexample: on a one-tier chain with no CanUpdate tier
but a read lock on path p held by the first tier, ChainFS.Write returns a
lock error rather than success, contradicting the claim as stated. -/
theorem chainWrite_no_capable_locked_cex :
    (∀ t ∈ [((⟨false, false, true,
        fun _ _ => ((some "nf", []), ()),
        fun _ _ _ _ => (none, ()),
        fun _ _ => (none, (true, .read))⟩ : TierM Unit), ())],
      t.1.canUpdate = false) ∧
    (chainWrite [((⟨false, false, true,
        fun _ _ => ((some "nf", []), ()),
        fun _ _ _ _ => (none, ()),
        fun _ _ => (none, (true, .read))⟩ : TierM Unit), ())]
      "p" [1] 420).1 = some "file is locked" := by
  exact ⟨by decide, rfl⟩

/-- Witness for the amended claim C10 on a concrete one-tier chain with
no CanUpdate capability and no lock. -/
theorem chainWrite_no_capable_witness :
    (chainWrite [(witHitTier, ())] "f" [2] 420).1 = none ∧
    (chainWrite [(witHitTier, ())] "f" [2] 420).2.2 = [] ∧
    (chainWrite [(witHitTier, ())] "f" [2] 420).2.1 = [(witHitTier, ())] :=
  chainWrite_no_capable_tiers [(witHitTier, ())] "f" [2] 420 (by decide)
    (by intro t ht; simp at ht; subst ht; rfl)

/-- Witness for the amended claim C1 on the concrete two-tier chain
[witFailTier, witHitTier]: the hit at index 1 is returned and propagated
to tier 0 with mode 0644. -/
theorem chainRead_first_hit_witness :
    (chainRead [(witFailTier, ()), (witHitTier, ())] "f").1 = (none, [7]) ∧
    (chainRead [(witFailTier, ()), (witHitTier, ())] "f").2.2 =
      [⟨0, "f", [7], 420⟩] := by
  have h := (chainRead_first_hit_propagates
    [(witFailTier, ()), (witHitTier, ())] "f" (by decide)).1 1 [7] (by decide)
  refine ⟨h.1, ?_⟩
  rw [h.2]
  decide

/-!
## LocalFS (second segment of src/server_fs.go)

The backing store behind a tier root is a partial map from paths to file
contents; `Env` carries failure oracles for the OS calls that can fail
(`os.Remove`, the open/write/chmod sequence of LocalFS.Write) and the
server's own process id (`os.Getpid()`).  The Go lock map
`map[string]FileLock` is an association list written to only when the
key is absent, mirroring map assignment and `delete`.  File modes are
accepted but not recorded: no claim about LocalFS depends on the mode
stored on disk.
-/

/-- The files present under a tier root. -/
abbrev Disk := Path → Option Content

/-- Failure oracles for OS calls plus the server process id. -/
structure Env where
  removeFails : Path → Bool
  writeFails : Path → Bool
  selfPid : Nat

/-- FileSystemConfig: role, byte budget (MaxSize), features. -/
structure LCfg where
  role : Role
  maxSize : Nat
  canUpdate : Bool
  canDelete : Bool
  canLock : Bool

/-- Mutable state of one LocalFS: the disk under its root, the cache
entry list, the lock map and the clock standing for time.Now(). -/
structure LState where
  disk : Disk
  cache : List CacheEntry
  locks : List (Path × FileLock)
  clock : Nat

/-- The state of a LocalFS as built by NewLocalFS over an empty root. -/
def freshState : LState := ⟨fun _ => none, [], [], 0⟩

/-- The byte total the eviction loop computes over the entry list. -/
def sizeSum (l : List CacheEntry) : Nat := (l.map (·.size)).sum

/-- The removal step of LocalFS.updateCacheEntry: drop the first entry
for the path (the loop breaks after the first match). -/
def dropEntry (p : Path) : List CacheEntry → List CacheEntry
  | [] => []
  | e :: es => if e.path = p then es else e :: dropEntry p es

/-- LocalFS.updateCacheEntry: remove any prior entry for the path, then
append a fresh one with LastUsed = now. -/
def touch (p : Path) (n : Nat) (s : LState) : LState :=
  { s with cache := dropEntry p s.cache ++ [⟨p, n, s.clock⟩],
           clock := s.clock + 1 }

/-- os.Remove under the tier root: fails when the file is absent or when
the environment says so; otherwise deletes the file. -/
def osRemove (env : Env) (d : Disk) (p : Path) : Option String × Disk :=
  match d p with
  | none => (some ("remove " ++ p ++ ": no such file"), d)
  | some _ =>
    if env.removeFails p then (some ("remove " ++ p ++ ": io error"), d)
    else (none, fun q => if q = p then none else d q)

/-- The index removal `append(l[:i], l[i+1:]...)` used on the cache
list. -/
def removeIdx : List CacheEntry → Nat → List CacheEntry
  | [], _ => []
  | _ :: es, 0 => es
  | e :: es, n + 1 => e :: removeIdx es n

/-- The argmin scan inside ensureCacheSpace: `bi` is the best index so
far, `bv` its LastUsed, `i` the index of the head of the remaining list.
`Before` is strict, so the earliest position wins among ties. -/
def oldestAux : List CacheEntry → Nat → Nat → Nat → Nat
  | [], _, bi, _ => bi
  | e :: es, i, bi, bv =>
    if e.lastUsed < bv then oldestAux es (i + 1) i e.lastUsed
    else oldestAux es (i + 1) bi bv

/-- The `oldestIdx` computed by ensureCacheSpace: starts at index 0 and
scans the whole list (comparing index 0 with itself is a no-op). -/
def oldestIdx : List CacheEntry → Nat
  | [] => 0
  | e :: es => oldestAux es 1 0 e.lastUsed

/-- The eviction loop of LocalFS.ensureCacheSpace (src/server_fs.go
lines 688-707), with the running size carried exactly as in the source.
The `fuel` argument bounds the iteration count; each iteration removes
one entry, so `cache.length` fuel is always enough and the fuel-exhausted
branch is never reached from `ensureCacheSpace`. -/
def evictLoop (env : Env) (maxSize needed : Nat) :
    Nat → Disk → List CacheEntry → Nat → Option String × Disk × List CacheEntry
  | 0, d, cache, _ => (none, d, cache)
  | fuel + 1, d, cache, curr =>
    if curr + needed > maxSize ∧ cache ≠ [] then
      let i := oldestIdx cache
      let e := (cache[i]?).getD ⟨"", 0, 0⟩
      match osRemove env d e.path with
      | (some err, d') => (some err, d', cache)
      | (none, d') =>
        evictLoop env maxSize needed fuel d' (removeIdx cache i) (curr - e.size)
    else (none, d, cache)

/-- LocalFS.ensureCacheSpace (lines 673-710): nothing to do off the
cache role; otherwise run the eviction loop starting from the freshly
computed current size. -/
def ensureCacheSpace (env : Env) (cfg : LCfg) (needed : Nat) (s : LState) :
    Option String × LState :=
  if cfg.role = Role.cache then
    let r := evictLoop env cfg.maxSize needed s.cache.length s.disk s.cache
      (sizeSum s.cache)
    (r.1, { s with disk := r.2.1, cache := r.2.2 })
  else (none, s)

/-- LocalFS.IsLocked (lines 456-469). -/
def lfsIsLocked (cfg : LCfg) (s : LState) (p : Path) :
    Option String × (Bool × LockType) :=
  if cfg.canLock then
    match s.locks.lookup p with
    | some lk => (none, (true, lk.lockType))
    | none => (none, (false, .read))
  else (some "filesystem does not support locking", (false, .read))

/-- LocalFS.Read (lines 514-534): read-lock guard when CanLock (the
IsLocked error is discarded in the source), then the disk read, then the
cache touch on the cache role. -/
def lfsRead (cfg : LCfg) (s : LState) (p : Path) :
    (Option String × Content) × LState :=
  if cfg.canLock ∧ (lfsIsLocked cfg s p).2.1 = true ∧
      ((lfsIsLocked cfg s p).2.2 = LockType.write ∨
       (lfsIsLocked cfg s p).2.2 = LockType.exclusive) then
    ((some "file is locked for writing", []), s)
  else
    match s.disk p with
    | none => ((some ("open " ++ p ++ ": no such file"), []), s)
    | some c =>
      if cfg.role = Role.cache then ((none, c), touch p c.length s)
      else ((none, c), s)

/-- The tail of LocalFS.Write after the capability and lock checks:
ensure cache space on the cache role, then the create/write/chmod
sequence (modelled as an atomic write that the environment may fail),
then the cache touch. -/
def lfsWriteBody (env : Env) (cfg : LCfg) (s : LState) (p : Path)
    (c : Content) : Option String × LState :=
  match (if cfg.role = Role.cache then ensureCacheSpace env cfg c.length s
         else (none, s)) with
  | (some e, s') => (some e, s')
  | (none, s') =>
    if env.writeFails p then
      (some ("open " ++ p ++ ": permission denied"), s')
    else
      let s'' := { s' with disk := fun q => if q = p then some c else s'.disk q }
      if cfg.role = Role.cache then (none, touch p c.length s'')
      else (none, s'')

/-- LocalFS.Write (lines 536-591): capability check, write-lock check
(the owner of a Write/Exclusive lock may write; a Read lock or another
process's lock blocks), then the write body.  The mode argument is
accepted as in the source but not recorded in the state. -/
def lfsWrite (env : Env) (cfg : LCfg) (s : LState) (p : Path) (c : Content)
    (_m : Mode) : Option String × LState :=
  if cfg.canUpdate then
    match (if cfg.canLock then s.locks.lookup p else none) with
    | some lk =>
      if lk.processId = env.selfPid ∧
          (lk.lockType = LockType.write ∨ lk.lockType = LockType.exclusive) then
        lfsWriteBody env cfg s p c
      else if lk.lockType = LockType.read then
        (some "file is locked for reading", s)
      else (some "file is locked by another process", s)
    | none => lfsWriteBody env cfg s p c
  else (some "filesystem does not support updates", s)

/-- LocalFS.Lock (lines 399-431): capability check, os.Stat existence
check, then the lock-table decision: coalesce Read onto Read, reject any
other collision, create the record when the path is free. -/
def lfsLock (cfg : LCfg) (s : LState) (p : Path) (lt : LockType)
    (pid : Nat) : Option String × LState :=
  if cfg.canLock then
    match s.disk p with
    | none => (some ("stat " ++ p ++ ": no such file"), s)
    | some _ =>
      match s.locks.lookup p with
      | some lk =>
        if lk.lockType = LockType.read ∧ lt = LockType.read then (none, s)
        else (some "file is already locked", s)
      | none =>
        (none, { s with locks := (p, ⟨lt, pid, s.clock⟩) :: s.locks,
                        clock := s.clock + 1 })
  else (some "filesystem does not support locking", s)

/-- LocalFS.Unlock (lines 434-453). -/
def lfsUnlock (cfg : LCfg) (s : LState) (p : Path) (pid : Nat) :
    Option String × LState :=
  if cfg.canLock then
    match s.locks.lookup p with
    | none => (some "file is not locked", s)
    | some lk =>
      if lk.processId = pid then
        (none, { s with locks := s.locks.eraseP (fun e => e.1 == p) })
      else (some "lock belongs to different process", s)
  else (some "filesystem does not support locking", s)

/-- The ServerFS view of a LocalFS, as the chain consumes it. -/
def mkTier (env : Env) (cfg : LCfg) : TierM LState where
  canUpdate := cfg.canUpdate
  canDelete := cfg.canDelete
  canLock := cfg.canLock
  readOp := fun s p => lfsRead cfg s p
  writeOp := fun s p c m => lfsWrite env cfg s p c m
  isLockedOp := fun s p => lfsIsLocked cfg s p

/-!
## The lock table (claims C5 and C8)
-/

lemma nodup_keys_lfsLock (cfg : LCfg) (s : LState) (p : Path)
    (lt : LockType) (pid : Nat) (h : (s.locks.map Prod.fst).Nodup) :
    (((lfsLock cfg s p lt pid).2).locks.map Prod.fst).Nodup := by
  unfold lfsLock
  by_cases hc : cfg.canLock
  · simp only [hc, if_true]
    rcases s.disk p with _ | c
    · exact h
    · rcases hl : s.locks.lookup p with _ | lk
      · simp only [hl]
        refine List.Nodup.cons ?_ h
        intro hm
        rcases List.mem_map.mp hm with ⟨⟨a, b⟩, hab, rfl⟩
        simp at hl
        exact hl a b hab rfl
      · simp only [hl]
        by_cases hr : lk.lockType = LockType.read ∧ lt = LockType.read <;>
          simp [hr, h]
  · simp [hc, h]

lemma nodup_keys_lfsUnlock (cfg : LCfg) (s : LState) (p : Path) (pid : Nat)
    (h : (s.locks.map Prod.fst).Nodup) :
    (((lfsUnlock cfg s p pid).2).locks.map Prod.fst).Nodup := by
  unfold lfsUnlock
  by_cases hc : cfg.canLock
  · simp only [hc, if_true]
    rcases hl : s.locks.lookup p with _ | lk
    · simp [hl, h]
    · simp only [hl]
      by_cases hp : lk.processId = pid
      · simp only [hp, if_true]
        exact h.sublist ((List.eraseP_sublist s.locks).map Prod.fst)
      · simp [hp, h]
  · simp [hc, h]

/-- Claim C5 (amended): the lock table of a LocalFS keeps at most one
record per path: acquire and release preserve distinctness of the
recorded paths (and the fresh table is empty).  On a lock-capable tier,
when the path exists on the backing store, an existing Read record
coalesces a further Read acquire: it succeeds without changing the
state.  When a record exists and either it or the request is not Read,
the acquire fails (whatever the stat outcome). -/
theorem lock_exclusivity (cfg : LCfg) (s : LState) (p : Path)
    (lt : LockType) (pid : Nat) :
    ((s.locks.map Prod.fst).Nodup →
      (((lfsLock cfg s p lt pid).2).locks.map Prod.fst).Nodup ∧
      (((lfsUnlock cfg s p pid).2).locks.map Prod.fst).Nodup) ∧
    (∀ lk, cfg.canLock = true → (s.disk p).isSome = true →
      s.locks.lookup p = some lk → lk.lockType = LockType.read →
      lt = LockType.read → lfsLock cfg s p lt pid = (none, s)) ∧
    (∀ lk, s.locks.lookup p = some lk →
      (lk.lockType ≠ LockType.read ∨ lt ≠ LockType.read) →
      ((lfsLock cfg s p lt pid).1).isSome = true) := by
  refine ⟨fun h => ⟨nodup_keys_lfsLock cfg s p lt pid h,
    nodup_keys_lfsUnlock cfg s p pid h⟩, ?_, ?_⟩
  · intro lk hc hex hl hlk hlt
    rcases hd : s.disk p with _ | c
    · rw [hd] at hex; simp at hex
    · simp [lfsLock, hc, hd, hl, hlk, hlt]
  · intro lk hl hne
    unfold lfsLock
    by_cases hc : cfg.canLock
    · simp only [hc, if_true]
      rcases hd : s.disk p with _ | c
      · simp
      · have hr : ¬(lk.lockType = LockType.read ∧ lt = LockType.read) := by
          rcases hne with hne | hne <;> exact fun hcon => hne (by simp [hcon])
        simp [hl, hr]
    · simp [hc]

/-- States of the reachable counterexample for claim C5 as literally
stated: on a single cache tier with CanLock, write p (3 bytes, budget
3), take a Read lock on p, then write q (1 byte), which evicts p's file
from the backing store while the lock record stays. -/
def cexEnv : Env := ⟨fun _ => false, fun _ => false, 1⟩

/-- Config of the counterexample tier: cache role, budget 3, all
capabilities. -/
def cexCfg : LCfg := ⟨Role.cache, 3, true, true, true⟩

/-- State after writing p, read-locking p, and writing q (see cexEnv). -/
def cexS3 : LState :=
  (lfsWrite cexEnv cexCfg
    ((lfsLock cexCfg
      ((lfsWrite cexEnv cexCfg freshState "p" [1, 2, 3] 420).2)
      "p" LockType.read 1).2)
    "q" [7] 420).2

/-- Claim C5 counterexample: in the reachable state cexS3 the lock table
holds a Read record for p, yet a further Read acquire fails (the file
was evicted, so the os.Stat precheck of LocalFS.Lock errors), refuting
the unconditional coalescing part of the claim. -/
theorem lock_read_coalesce_cex :
    (cexS3.locks.lookup "p").map (·.lockType) = some LockType.read ∧
    (lfsLock cexCfg cexS3 "p" LockType.read 2).1 =
      some "stat p: no such file" := by
  exact ⟨rfl, rfl⟩

/-- Witness state for the amended claim C5: file p on disk and a Read
record for p. -/
def witLockedState : LState :=
  ⟨fun q => if q = "p" then some [1] else none, [],
   [("p", ⟨LockType.read, 1, 0⟩)], 5⟩

/-- Witness for the amended claim C5 at concrete inputs: key distinctness
is preserved by an acquire, Read-on-Read coalescing succeeds without
change, and a Write request against the Read record fails. -/
theorem lock_exclusivity_witness :
    (((lfsLock cexCfg witLockedState "p" LockType.read 2).2).locks.map
      Prod.fst).Nodup ∧
    lfsLock cexCfg witLockedState "p" LockType.read 2 = (none, witLockedState) ∧
    ((lfsLock cexCfg witLockedState "p" LockType.write 2).1).isSome = true := by
  refine ⟨((lock_exclusivity cexCfg witLockedState "p" LockType.read 2).1
      (by decide)).1, ?_, ?_⟩
  · exact (lock_exclusivity cexCfg witLockedState "p" LockType.read 2).2.1
      ⟨LockType.read, 1, 0⟩ rfl rfl rfl rfl rfl
  · exact (lock_exclusivity cexCfg witLockedState "p" LockType.write 2).2.2
      ⟨LockType.read, 1, 0⟩ rfl (by right; decide)

/-- Claim C8 (amended): on a lock-capable tier, for every path that
exists on the tier's backing store and has no existing lock record,
acquire(path, type, pid) creates a lock record for that path (carrying
the requested type, the pid and the creation time) and succeeds. -/
theorem lock_acquire_fresh (cfg : LCfg) (s : LState) (p : Path)
    (lt : LockType) (pid : Nat) (hcap : cfg.canLock = true)
    (hex : (s.disk p).isSome = true) (hfree : s.locks.lookup p = none) :
    (lfsLock cfg s p lt pid).1 = none ∧
    ((lfsLock cfg s p lt pid).2).locks.lookup p =
      some ⟨lt, pid, s.clock⟩ := by
  rcases hd : s.disk p with _ | c
  · rw [hd] at hex; simp at hex
  · constructor
    · simp [lfsLock, hcap, hd, hfree]
    · simp [lfsLock, hcap, hd, hfree, List.lookup_cons]

/-- Claim C8 counterexample: on a lock-capable tier whose backing store
does not contain p, no lock record exists for p, yet the acquire fails
with the stat error and creates no record, refuting the claim as
stated. -/
theorem lock_acquire_missing_file_cex :
    freshState.locks.lookup "p" = none ∧
    (lfsLock ⟨Role.main, 0, true, true, true⟩ freshState "p"
      LockType.read 5).1 = some "stat p: no such file" ∧
    ((lfsLock ⟨Role.main, 0, true, true, true⟩ freshState "p"
      LockType.read 5).2).locks = [] := by
  exact ⟨rfl, rfl, rfl⟩

/-- Witness for the amended claim C8: acquiring a Write lock on the
existing, unlocked path q of witLockedState succeeds and records it. -/
theorem lock_acquire_fresh_witness :
    ((lfsLock cexCfg
      ⟨fun q => if q = "q" then some [2] else none, [], [], 7⟩
      "q" LockType.write 4).1 = none) ∧
    ((lfsLock cexCfg
      ⟨fun q => if q = "q" then some [2] else none, [], [], 7⟩
      "q" LockType.write 4).2).locks.lookup "q" =
      some ⟨LockType.write, 4, 7⟩ :=
  lock_acquire_fresh cexCfg
    ⟨fun q => if q = "q" then some [2] else none, [], [], 7⟩
    "q" LockType.write 4 rfl rfl rfl

/-!
## ensure_room as worded in the spec, and its equivalence to the
implementation (claim C4)
-/

/-- Minimum of a list of naturals, `none` on the empty list. -/
def minL : List Nat → Option Nat
  | [] => none
  | x :: xs =>
    match minL xs with
    | none => some x
    | some m => some (min x m)

/-- The pick the spec describes: the entry with the smallest last_used,
ties broken by earliest position — the first index whose last_used
equals the minimum. -/
def pickLRU (es : List CacheEntry) : Nat :=
  es.findIdx (fun e => minL (es.map (·.lastUsed)) == some e.lastUsed)

/-- ensure_room as worded in the spec (section 4.2): while sum(sizes) +
needed_bytes > budget and entries remain, pick the entry with the
smallest last_used (ties broken by earliest position), delete the
underlying file from the backing store, drop the entry; if the deletion
fails, abort eviction and surface the error.  The sum is recomputed each
iteration and the pick is specified through the minimum, to be compared
with the incremental implementation.  Fuel as in `evictLoop`. -/
def ensure_room (env : Env) (budget needed : Nat) :
    Nat → Disk → List CacheEntry → Option String × Disk × List CacheEntry
  | 0, d, es => (none, d, es)
  | fuel + 1, d, es =>
    if sizeSum es + needed > budget ∧ es ≠ [] then
      let i := pickLRU es
      let e := (es[i]?).getD ⟨"", 0, 0⟩
      match osRemove env d e.path with
      | (some err, d') => (some err, d', es)
      | (none, d') => ensure_room env budget needed fuel d' (removeIdx es i)
    else (none, d, es)

/-- The spec-worded counterpart of `ensureCacheSpace` over an LState. -/
def ensure_room_state (env : Env) (cfg : LCfg) (needed : Nat) (s : LState) :
    Option String × LState :=
  if cfg.role = Role.cache then
    let r := ensure_room env cfg.maxSize needed s.cache.length s.disk s.cache
    (r.1, { s with disk := r.2.1, cache := r.2.2 })
  else (none, s)

lemma minL_cons_some (x : Nat) (xs : List Nat) :
    ∃ m, minL (x :: xs) = some m := by
  rcases hx : minL xs with _ | m' <;> simp [minL, hx]

lemma minL_nil_of_none {xs : List Nat} (h : minL xs = none) : xs = [] := by
  cases xs with
  | nil => rfl
  | cons a as =>
    obtain ⟨m0, hm0⟩ := minL_cons_some a as
    rw [hm0] at h
    exact absurd h (by simp)

lemma minL_spec : ∀ (xs : List Nat) (m : Nat), minL xs = some m →
    m ∈ xs ∧ ∀ y ∈ xs, m ≤ y := by
  intro xs
  induction xs with
  | nil => intro m h; simp [minL] at h
  | cons x xs ih =>
    intro m h
    rcases hx : minL xs with _ | m'
    · have hxs : xs = [] := minL_nil_of_none hx
      subst hxs
      have hm : x = m := by simpa [minL] using h
      subst hm
      exact ⟨by simp, by intro y hy; simp at hy; simp [hy]⟩
    · rw [minL, hx] at h
      have hm : min x m' = m := by simpa using h
      obtain ⟨hmem, hle⟩ := ih m' hx
      subst hm
      constructor
      · rcases Nat.le_total x m' with hxm | hxm
        · simp [Nat.min_eq_left hxm]
        · right
          rw [Nat.min_eq_right hxm]
          exact hmem
      · intro y hy
        rcases List.mem_cons.mp hy with h3 | h3
        · rw [h3]
          exact Nat.min_le_left _ _
        · exact le_trans (Nat.min_le_right _ _) (hle y h3)

lemma findIdx_congr {α : Type _} (p q : α → Bool) :
    ∀ (l : List α), (∀ a ∈ l, p a = q a) → l.findIdx p = l.findIdx q := by
  intro l
  induction l with
  | nil => intro _; rfl
  | cons a l ih =>
    intro h
    rw [List.findIdx_cons, List.findIdx_cons, h a (by simp),
      ih (fun b hb => h b (by simp [hb]))]

/-- The earliest-position minimum moves past a head that is strictly
above the tail minimum. -/
lemma pickLRU_cons_lt (x : CacheEntry) (es : List CacheEntry) (m : Nat)
    (hm : minL (es.map (·.lastUsed)) = some m) (hlt : m < x.lastUsed) :
    pickLRU (x :: es) = 1 + pickLRU es := by
  have hfull : minL (x.lastUsed :: es.map (·.lastUsed)) = some m := by
    simp only [minL, hm]
    rw [Nat.min_eq_right (Nat.le_of_lt hlt)]
  simp only [pickLRU, List.map_cons]
  rw [List.findIdx_cons]
  have hx : (minL (x.lastUsed :: es.map (·.lastUsed)) == some x.lastUsed) = false := by
    rw [hfull]
    simp only [beq_eq_false_iff_ne, ne_eq, Option.some.injEq]
    omega
  rw [hx]
  simp only [cond_false]
  have hcongr : ∀ e ∈ es,
      ((fun e => minL (x.lastUsed :: es.map (·.lastUsed)) == some e.lastUsed) e) =
      ((fun e => minL (es.map (·.lastUsed)) == some e.lastUsed) e) := by
    intro e _
    simp only [hfull, hm]
  rw [findIdx_congr _ _ es hcongr]
  omega

/-- A head below-or-equal to the whole tail is the earliest minimum. -/
lemma pickLRU_cons_ge (x : CacheEntry) (es : List CacheEntry)
    (h : ∀ y ∈ es, x.lastUsed ≤ y.lastUsed) : pickLRU (x :: es) = 0 := by
  have hfull : minL (x.lastUsed :: es.map (·.lastUsed)) = some x.lastUsed := by
    rcases hx : minL (es.map (·.lastUsed)) with _ | m'
    · simp [minL, hx]
    · have hmem := (minL_spec _ _ hx).1
      rcases List.mem_map.mp hmem with ⟨y, hy, rfl⟩
      simp [minL, hx, Nat.min_eq_left (h y hy)]
  simp only [pickLRU, List.map_cons]
  rw [List.findIdx_cons, hfull]
  simp

lemma oldestAux_ge : ∀ (es : List CacheEntry) (i bi bv : Nat),
    (∀ e ∈ es, bv ≤ e.lastUsed) → oldestAux es i bi bv = bi := by
  intro es
  induction es with
  | nil => intro i bi bv _; rfl
  | cons x es ih =>
    intro i bi bv h
    have hx : ¬x.lastUsed < bv := Nat.not_lt.mpr (h x (by simp))
    simp only [oldestAux, hx, if_false]
    exact ih (i + 1) bi bv (fun e he => h e (by simp [he]))

lemma oldestAux_lt : ∀ (es : List CacheEntry) (i bi bv : Nat),
    (∃ e ∈ es, e.lastUsed < bv) → oldestAux es i bi bv = i + pickLRU es := by
  intro es
  induction es with
  | nil => intro i bi bv h; simp at h
  | cons x es ih =>
    intro i bi bv h
    by_cases hx : x.lastUsed < bv
    · simp only [oldestAux, hx, if_true]
      by_cases hex : ∃ e ∈ es, e.lastUsed < x.lastUsed
      · rw [ih (i + 1) i x.lastUsed hex]
        obtain ⟨y, hy, hylt⟩ := hex
        rcases hmt : minL (es.map (·.lastUsed)) with _ | m'
        · have hnil : es = [] := by simpa using minL_nil_of_none hmt
          subst hnil
          simp at hy
        · have hm'le : m' ≤ y.lastUsed :=
            (minL_spec _ _ hmt).2 y.lastUsed (List.mem_map.mpr ⟨y, hy, rfl⟩)
          rw [pickLRU_cons_lt x es m' hmt (by omega)]
          omega
      · push_neg at hex
        rw [oldestAux_ge es (i + 1) i x.lastUsed hex,
          pickLRU_cons_ge x es hex]
        omega
    · simp only [oldestAux, hx, if_false]
      obtain ⟨e, he, helt⟩ := h
      rcases List.mem_cons.mp he with he | he
      · rw [he] at helt; omega
      · have hex : ∃ e ∈ es, e.lastUsed < bv := ⟨e, he, helt⟩
        rw [ih (i + 1) bi bv hex]
        have hble : bv ≤ x.lastUsed := Nat.le_of_not_lt hx
        rcases hmt : minL (es.map (·.lastUsed)) with _ | m'
        · have hnil : es = [] := by simpa using minL_nil_of_none hmt
          subst hnil
          simp at he
        · have hm'le : m' ≤ e.lastUsed :=
            (minL_spec _ _ hmt).2 e.lastUsed (List.mem_map.mpr ⟨e, he, rfl⟩)
          rw [pickLRU_cons_lt x es m' hmt (by omega)]
          omega

/-- The argmin scan of ensureCacheSpace selects exactly the entry the
spec describes: smallest last_used, earliest position among ties. -/
lemma oldestIdx_eq_pickLRU (es : List CacheEntry) (h : es ≠ []) :
    oldestIdx es = pickLRU es := by
  cases es with
  | nil => exact absurd rfl h
  | cons x es =>
    have hidx : oldestIdx (x :: es) = oldestAux es 1 0 x.lastUsed := rfl
    rw [hidx]
    by_cases hex : ∃ e ∈ es, e.lastUsed < x.lastUsed
    · rw [oldestAux_lt es 1 0 x.lastUsed hex]
      obtain ⟨y, hy, hylt⟩ := hex
      rcases hmt : minL (es.map (·.lastUsed)) with _ | m'
      · have hnil : es = [] := by simpa using minL_nil_of_none hmt
        subst hnil
        simp at hy
      · have hm'le : m' ≤ y.lastUsed :=
          (minL_spec _ _ hmt).2 y.lastUsed (List.mem_map.mpr ⟨y, hy, rfl⟩)
        rw [pickLRU_cons_lt x es m' hmt (by omega)]
    · push_neg at hex
      rw [oldestAux_ge es 1 0 x.lastUsed hex, pickLRU_cons_ge x es hex]

lemma pickLRU_lt_length (es : List CacheEntry) (h : es ≠ []) :
    pickLRU es < es.length := by
  apply List.findIdx_lt_length_of_exists
  cases es with
  | nil => exact absurd rfl h
  | cons x es =>
    obtain ⟨m, hm⟩ := minL_cons_some x.lastUsed (es.map (·.lastUsed))
    have hm' : minL ((x :: es).map (·.lastUsed)) = some m := by
      simpa using hm
    have hmem := (minL_spec _ _ hm').1
    rcases List.mem_map.mp hmem with ⟨y, hy, hym⟩
    refine ⟨y, hy, ?_⟩
    rw [hm', ← hym]
    simp

lemma sizeSum_removeIdx : ∀ (es : List CacheEntry) (i : Nat),
    i < es.length →
    sizeSum es = sizeSum (removeIdx es i) + ((es[i]?).getD ⟨"", 0, 0⟩).size := by
  intro es
  induction es with
  | nil => intro i h; simp at h
  | cons e es ih =>
    intro i h
    cases i with
    | zero => simp [sizeSum, removeIdx]; omega
    | succ i =>
      have h' : i < es.length := by simpa using h
      have := ih i h'
      simp only [sizeSum, List.map_cons, List.sum_cons, removeIdx,
        List.getElem?_cons_succ] at *
      omega

/-- One fuelled step at a time, the incremental loop of the source and
the sum-recomputing loop of the spec coincide. -/
lemma evictLoop_eq_room (env : Env) (maxSize needed : Nat) :
    ∀ (fuel : Nat) (d : Disk) (es : List CacheEntry),
      evictLoop env maxSize needed fuel d es (sizeSum es) =
        ensure_room env maxSize needed fuel d es := by
  intro fuel
  induction fuel with
  | zero => intro d es; rfl
  | succ fuel ih =>
    intro d es
    by_cases hc : sizeSum es + needed > maxSize ∧ es ≠ []
    · have hne := hc.2
      have hlt : pickLRU es < es.length := pickLRU_lt_length es hne
      simp only [evictLoop, ensure_room, hc.1, hc.2, ne_eq,
        not_false_iff, true_and, and_true, and_self, if_true,
        oldestIdx_eq_pickLRU es hne]
      rcases hr : osRemove env d ((es[pickLRU es]?).getD ⟨"", 0, 0⟩).path
        with ⟨e?, d'⟩
      cases e? with
      | none =>
        have hsz : sizeSum es - ((es[pickLRU es]?).getD ⟨"", 0, 0⟩).size =
            sizeSum (removeIdx es (pickLRU es)) := by
          have := sizeSum_removeIdx es (pickLRU es) hlt
          omega
        simp only [hsz]
        exact ih d' (removeIdx es (pickLRU es))
      | some err => rfl
    · simp only [evictLoop, ensure_room, hc, if_false]

/-- LocalFS.ensureCacheSpace equals the spec-worded ensure_room on every
state (claim C4, main equation). -/
lemma ensureCacheSpace_eq_room_state (env : Env) (cfg : LCfg)
    (needed : Nat) (s : LState) :
    ensureCacheSpace env cfg needed s = ensure_room_state env cfg needed s := by
  unfold ensureCacheSpace ensure_room_state
  by_cases hrole : cfg.role = Role.cache
  · simp only [hrole, if_true, evictLoop_eq_room]
  · simp only [hrole, if_false]

/-- Claim C4: the eviction loop evicts the entry with the smallest
last_used (ties broken by earliest position) until the needed bytes fit
the budget or no entries remain, recomputable as the spec's ensure_room;
and a deletion failure aborts eviction and is surfaced to the caller of
LocalFS.Write. -/
theorem ensureCacheSpace_matches_spec :
    (∀ (env : Env) (cfg : LCfg) (needed : Nat) (s : LState),
      ensureCacheSpace env cfg needed s = ensure_room_state env cfg needed s) ∧
    (∀ (env : Env) (cfg : LCfg) (s : LState) (p : Path) (c : Content)
      (m : Mode) (e : String) (s' : LState),
      cfg.canUpdate = true → cfg.role = Role.cache →
      (cfg.canLock = false ∨ s.locks.lookup p = none) →
      ensureCacheSpace env cfg c.length s = (some e, s') →
      lfsWrite env cfg s p c m = (some e, s')) := by
  refine ⟨ensureCacheSpace_eq_room_state, ?_⟩
  intro env cfg s p c m e s' hupd hrole hlk hens
  unfold lfsWrite
  have hmatch : (if cfg.canLock then s.locks.lookup p else none) = none := by
    rcases hlk with hlk | hlk
    · simp [hlk]
    · by_cases hc : cfg.canLock <;> simp [hc, hlk]
  rw [hupd]
  simp only [if_true, hmatch]
  unfold lfsWriteBody
  simp only [hrole, if_true, hens]

/-- Environment for the C4 witness: removing file a fails. -/
def c4Env : Env := ⟨fun p => p == "a", fun _ => false, 1⟩

/-- Cache tier with budget 5 for the C4 witness. -/
def c4Cfg : LCfg := ⟨Role.cache, 5, true, false, false⟩

/-- State holding file a of 5 bytes in the cache for the C4 witness. -/
def c4S : LState := (lfsWrite c4Env c4Cfg freshState "a" [1, 1, 1, 1, 1] 420).2

/-- Witness for claim C4 at concrete inputs: the implementation equals
ensure_room on c4S, and the failing eviction (removing file a fails)
surfaces its error through LocalFS.Write. -/
theorem ensureCacheSpace_matches_spec_witness :
    ensureCacheSpace c4Env c4Cfg 1 c4S = ensure_room_state c4Env c4Cfg 1 c4S ∧
    lfsWrite c4Env c4Cfg c4S "b" [2] 420 =
      (some "remove a: io error", (ensureCacheSpace c4Env c4Cfg 1 c4S).2) := by
  refine ⟨ensureCacheSpace_matches_spec.1 c4Env c4Cfg 1 c4S, ?_⟩
  exact ensureCacheSpace_matches_spec.2 c4Env c4Cfg c4S "b" [2] 420
    "remove a: io error" (ensureCacheSpace c4Env c4Cfg 1 c4S).2
    rfl rfl (Or.inl rfl) rfl

/-!
## Configuration validation (src/config.go, claim C6)

Only the post-YAML validation of LoadConfig is modelled; parsing is
plumbing per the spec.
-/

/-- FSConfig from src/config.go (the fields the validation reads). -/
structure FSC where
  typ : String
  role : String
  fsPath : String
  maxSize : Nat
  canUpdate : Bool
  canDelete : Bool
  canLock : Bool
deriving DecidableEq, Repr

/-- Config from src/config.go. -/
structure ConfigData where
  mount : String
  serverAddr : String
  filesystems : List FSC
  hasLocking : Bool
deriving DecidableEq, Repr

/-- The locking loop of LoadConfig (src/config.go lines 49-58): scan for
the first tier with CanLock; when found, set HasLocking, reject when its
index exceeds 0, and break — later tiers are never inspected. -/
def validateLockLoop : List FSC → Nat → Option String × Bool
  | [], _ => (none, false)
  | f :: fs, i =>
    if f.canLock then
      if 0 < i then
        (some "only the first filesystem in the chain can support locking", true)
      else (none, true)
    else validateLockLoop fs (i + 1)

/-- LoadConfig validation (src/config.go lines 38-60): mount required,
at least one filesystem, default server address, then the locking
loop.  Returns the Go error and the resulting config. -/
def loadConfig (c : ConfigData) : Option String × ConfigData :=
  if c.mount = "" then (some "mount point is required", c)
  else if c.filesystems = [] then (some "at least one filesystem is required", c)
  else
    let c1 := if c.serverAddr = "" then { c with serverAddr := ":8080" } else c
    match validateLockLoop c1.filesystems 0 with
    | (some e, _) => (some e, c1)
    | (none, hl) => (none, { c1 with hasLocking := hl })

lemma validateLockLoop_all_false : ∀ (fs : List FSC) (i : Nat),
    (∀ f ∈ fs, f.canLock = false) → validateLockLoop fs i = (none, false) := by
  intro fs
  induction fs with
  | nil => intro i _; rfl
  | cons f fs ih =>
    intro i h
    have hf : f.canLock = false := h f (by simp)
    simp only [validateLockLoop, hf, Bool.false_eq_true, if_false]
    exact ih (i + 1) (fun g hg => h g (by simp [hg]))

lemma validateLockLoop_reject : ∀ (fs : List FSC) (i : Nat), 0 < i →
    (∃ f ∈ fs, f.canLock = true) →
    ((validateLockLoop fs i).1).isSome = true := by
  intro fs
  induction fs with
  | nil => intro i _ h; simp at h
  | cons f fs ih =>
    intro i hi h
    by_cases hf : f.canLock
    · simp [validateLockLoop, hf, hi]
    · obtain ⟨g, hg, hgl⟩ := h
      rcases List.mem_cons.mp hg with hg | hg
      · rw [hg] at hgl; exact absurd hgl (by simp [hf])
      · simp only [validateLockLoop, hf, Bool.false_eq_true, if_false]
        exact ih (i + 1) (by omega) ⟨g, hg, hgl⟩

/-- Claim C6 (amended): LoadConfig rejects a configuration exactly when
the earliest tier with can_lock=true sits at an index above 0: it
rejects whenever some non-first tier has can_lock=true while the first
tier does not; it accepts (with respect to locking) whenever the first
tier has can_lock=true — regardless of later tiers — and whenever no
tier has can_lock at all. -/
theorem loadConfig_lock_validation (c : ConfigData) (h1 : ¬c.mount = "")
    (h2 : ¬c.filesystems = []) :
    (∀ i f f0, c.filesystems[i]? = some f → 0 < i → f.canLock = true →
      c.filesystems.head? = some f0 → f0.canLock = false →
      ((loadConfig c).1).isSome = true) ∧
    (∀ f0, c.filesystems.head? = some f0 → f0.canLock = true →
      (loadConfig c).1 = none) ∧
    ((∀ f ∈ c.filesystems, f.canLock = false) → (loadConfig c).1 = none) := by
  have hfs : (if c.serverAddr = "" then { c with serverAddr := ":8080" }
      else c).filesystems = c.filesystems := by
    by_cases ha : c.serverAddr = "" <;> simp [ha]
  refine ⟨?_, ?_, ?_⟩
  · intro i f f0 hif hi hfl hh hf0
    cases hcs : c.filesystems with
    | nil => exact absurd hcs h2
    | cons g gs =>
      have hg0 : g = f0 := by rw [hcs] at hh; simpa using hh
      subst hg0
      have hmem : f ∈ gs := by
        rcases i with _ | j
        · omega
        · rw [hcs] at hif
          simp only [List.getElem?_cons_succ] at hif
          exact List.getElem?_mem hif
      have hrej := validateLockLoop_reject gs 1 (by omega) ⟨f, hmem, hfl⟩
      unfold loadConfig
      simp only [h1, if_false, h2]
      have hfs2 : (if c.serverAddr = "" then { c with serverAddr := ":8080" }
          else c).filesystems = g :: gs := by rw [hfs, hcs]
      rw [hfs2]
      have hv' : validateLockLoop (g :: gs) 0 = validateLockLoop gs 1 := by
        simp [validateLockLoop, hf0]
      rw [hv']
      rcases hv : validateLockLoop gs 1 with ⟨e?, hl⟩
      cases e? with
      | none => rw [hv] at hrej; simp at hrej
      | some e => simp
  · intro f0 hh hf0
    cases hcs : c.filesystems with
    | nil => exact absurd hcs h2
    | cons g gs =>
      have hg0 : g = f0 := by rw [hcs] at hh; simpa using hh
      subst hg0
      unfold loadConfig
      simp only [h1, if_false, h2]
      have hfs2 : (if c.serverAddr = "" then { c with serverAddr := ":8080" }
          else c).filesystems = g :: gs := by rw [hfs, hcs]
      rw [hfs2]
      have hv : validateLockLoop (g :: gs) 0 = (none, true) := by
        simp [validateLockLoop, hf0]
      rw [hv]
  · intro hall
    unfold loadConfig
    simp only [h1, if_false, h2]
    rw [hfs, validateLockLoop_all_false c.filesystems 0 hall]

/-- A lock-capable tier spec for the C6 counterexample. -/
def cexFsLock : FSC := ⟨"local", "main", "/data", 0, true, true, true⟩

/-- Claim C6 counterexample: a configuration whose tiers 0 and 1 both
declare can_lock is accepted by LoadConfig — the loop breaks at tier 0 —
although tier 1 (a tier other than the first) has can_lock=true, which
the claim says must be rejected. -/
theorem loadConfig_accepts_double_lock_cex :
    (loadConfig ⟨"/mnt", ":8080", [cexFsLock, cexFsLock], false⟩).1 = none ∧
    ([cexFsLock, cexFsLock][1]?).map (·.canLock) = some true := by
  exact ⟨rfl, rfl⟩

/-- Witness for the amended claim C6: a config with can_lock only on
tier 1 is rejected; one with can_lock on tier 0 only is accepted; one
with no locking is accepted. -/
theorem loadConfig_lock_validation_witness :
    ((loadConfig ⟨"/mnt", "", [⟨"local", "cache", "/c", 9, true, true, false⟩,
      cexFsLock], false⟩).1).isSome = true ∧
    (loadConfig ⟨"/mnt", "", [cexFsLock,
      ⟨"local", "cache", "/c", 9, true, true, false⟩], false⟩).1 = none ∧
    (loadConfig ⟨"/mnt", "", [⟨"local", "cache", "/c", 9, true, true, false⟩],
      false⟩).1 = none := by
  refine ⟨(loadConfig_lock_validation _ (by decide) (by decide)).1 1 cexFsLock
      ⟨"local", "cache", "/c", 9, true, true, false⟩ rfl (by omega) rfl rfl rfl,
    (loadConfig_lock_validation _ (by decide) (by decide)).2.1 cexFsLock rfl rfl,
    (loadConfig_lock_validation _ (by decide) (by decide)).2.2 ?_⟩
  intro f hf
  simp at hf
  rw [hf]

/-!
## The FUSE adapter: offset writes and SetAttr (src/fuse.go, claims C7
and C9)

FileHandle.Write (lines 503-558) reads the whole file, zero-pads and
extends the buffer, overwrites in place, posts the full buffer with the
file's stored mode to /write, reports len(data) written and stores
offset+len(data) as the new size.  The server's write handler stores the
posted content verbatim at the path (handleWrite / LocalFS.Write both
replace the file), so the resulting file content is the buffer the
adapter assembled.
-/

/-- The `make` + `copy` grow step used twice by FileHandle.Write: when
the target length exceeds the current one, allocate zeros and copy the
current content into the front, i.e. append zeros up to the target. -/
def padTo (l : Content) (n : Nat) : Content :=
  if n > l.length then l ++ List.replicate (n - l.length) 0 else l

/-- The read-modify-write buffer assembly of FileHandle.Write: zero-pad
to the offset when it is past the end, extend to offset+len(data) when
needed, then copy the data over [offset, offset+len(data)). -/
def fuseWriteContent (old : Content) (offset : Nat) (data : Content) :
    Content :=
  let c2 := padTo (padTo old offset) (offset + data.length)
  c2.take offset ++ data ++ c2.drop (offset + data.length)

/-- FileHandle.Write's observable outcome: the buffer written back (with
the file's stored mode), resp.Size, and the updated h.file.info.Size. -/
def fuseHandleWrite (old : Content) (offset : Nat) (data : Content) :
    Content × Nat × Nat :=
  (fuseWriteContent old offset data, data.length, offset + data.length)

lemma padTo_length (l : Content) (n : Nat) :
    (padTo l n).length = max l.length n := by
  unfold padTo
  by_cases h : n > l.length <;> simp [h] <;> omega

lemma padTo_getElem (l : Content) (n : Nat) (i : Nat) :
    (padTo l n)[i]? = if i < max l.length n then
      (if i < l.length then l[i]? else some 0) else none := by
  unfold padTo
  by_cases h : n > l.length
  · rw [if_pos h, List.getElem?_append, List.getElem?_replicate]
    by_cases hi : i < l.length
    · rw [if_pos hi, if_pos (by omega), if_pos hi]
    · rw [if_neg hi, if_neg hi]
      by_cases hn : i < n
      · rw [if_pos (by omega), if_pos (by omega)]
      · rw [if_neg (by omega), if_neg (by omega)]
  · rw [if_neg h]
    by_cases hi : i < l.length
    · rw [if_pos (by omega), if_pos hi]
    · rw [if_neg (by omega), List.getElem?_eq_none (by omega)]

/-- The doubly padded buffer of FileHandle.Write holds the old content
in front, zeros beyond it, and has length max(old, offset+len(data)). -/
lemma padTo_padTo_getElem (old : Content) (offset dl : Nat) (i : Nat) :
    (padTo (padTo old offset) (offset + dl))[i]? =
      if i < max old.length (offset + dl) then
        (if i < old.length then old[i]? else some 0) else none := by
  rw [padTo_getElem, padTo_length, padTo_getElem]
  split_ifs <;> first | rfl | omega

lemma padTo_padTo_length (old : Content) (offset dl : Nat) :
    (padTo (padTo old offset) (offset + dl)).length =
      max old.length (offset + dl) := by
  rw [padTo_length, padTo_length]
  omega

/-- Claim C7: FileHandle.Write leaves the file holding the previous
content, zero-padded from the old length up to offset when the offset
exceeds it, extended to offset+len(data) when needed, with data
overwriting [offset, offset+len(data)); the response reports exactly
len(data) bytes and the stored size becomes offset+len(data). -/
theorem fuseWrite_characterization (old data : Content) (offset : Nat) :
    (fuseWriteContent old offset data).length =
      max old.length (offset + data.length) ∧
    (∀ i : Nat, (fuseWriteContent old offset data).getD i 0 =
      if offset ≤ i ∧ i < offset + data.length then data.getD (i - offset) 0
      else if i < old.length then old.getD i 0
      else 0) ∧
    (fuseHandleWrite old offset data).2.1 = data.length ∧
    (fuseHandleWrite old offset data).2.2 = offset + data.length := by
  have heq : fuseWriteContent old offset data =
      (padTo (padTo old offset) (offset + data.length)).take offset ++ data ++
      (padTo (padTo old offset) (offset + data.length)).drop
        (offset + data.length) := rfl
  have hlen := padTo_padTo_length old offset data.length
  have hat := padTo_padTo_getElem old offset data.length
  have htk : ((padTo (padTo old offset) (offset + data.length)).take
      offset).length = offset := by
    rw [List.length_take, hlen]
    omega
  have hAB : ((padTo (padTo old offset) (offset + data.length)).take offset ++
      data).length = offset + data.length := by
    rw [List.length_append, htk]
  refine ⟨?_, ?_, rfl, rfl⟩
  · rw [heq]
    simp only [List.length_append, htk, List.length_drop, hlen]
    omega
  · intro i
    rw [heq]
    simp only [List.getD_eq_getElem?_getD]
    rw [List.getElem?_append, hAB]
    by_cases hlo : i < offset
    · have hnm : ¬(offset ≤ i ∧ i < offset + data.length) := by omega
      rw [if_pos (by omega), List.getElem?_append, htk, if_pos hlo,
        List.getElem?_take, if_pos hlo, hat i, if_pos (by omega), if_neg hnm]
      by_cases ho : i < old.length
      · rw [if_pos ho, if_pos ho]
      · rw [if_neg ho, if_neg ho]
        rfl
    · by_cases hmid : i < offset + data.length
      · rw [if_pos hmid, List.getElem?_append, htk, if_neg hlo,
          if_pos ⟨by omega, hmid⟩]
      · have hnm : ¬(offset ≤ i ∧ i < offset + data.length) := by omega
        rw [if_neg hmid, List.getElem?_drop]
        have hidx : offset + data.length + (i - (offset + data.length)) = i := by
          omega
        rw [hidx, hat i, if_neg hnm]
        by_cases hc2 : i < max old.length (offset + data.length)
        · rw [if_pos hc2]
          by_cases ho : i < old.length
          · rw [if_pos ho, if_pos ho]
          · rw [if_neg ho, if_neg ho]
            rfl
        · rw [if_neg hc2, if_neg (by omega)]
          rfl

/-!
## SetAttr with only the mode changed (claim C9)

File.SetAttr (src/fuse.go lines 620-648) sends `FileInfo{Mode: req.Mode}`
to /write: the Content field is the zero value (nil), so the server
stores an empty file.  The server side is the verbatim store of the
write handler.
-/

/-- The body File.SetAttr posts to /write when only the mode changed:
the new mode and the zero-value Content (nil, i.e. empty). -/
def setattrModeRequest (newMode : Mode) : Content × Mode := ([], newMode)

/-- The server write path: store the posted content at the path with the
posted mode (handleWrite's os.WriteFile / LocalFS.Write's
create-truncate-chmod both replace the file). -/
def serverApplyWrite (files : Path → Option (Content × Mode)) (p : Path)
    (r : Content × Mode) : Path → Option (Content × Mode) :=
  fun q => if q = p then some r else files q

/-- A SetAttr request changing only the mode, as the adapter and server
execute it end to end. -/
def setattrModeOnly (files : Path → Option (Content × Mode)) (p : Path)
    (newMode : Mode) : Path → Option (Content × Mode) :=
  serverApplyWrite files p (setattrModeRequest newMode)

/-- Claim C9 is right and the code is wrong (code bug): on the file f
holding bytes [1, 2, 3] with mode 0644, a SetAttr that changes only the
mode to 0600 stores the new mode but truncates the content to empty,
because File.SetAttr posts FileInfo with the new mode and a nil Content;
the spec requires the current content to be written back. -/
theorem setattr_mode_truncates :
    (setattrModeOnly
      (fun q => if q = "f" then some ([1, 2, 3], 420) else none)
      "f" 384) "f" = some ([], 384) ∧
    (([] : Content) ≠ [1, 2, 3]) := by
  exact ⟨rfl, by decide⟩

/-!
## Engine runs over chains of LocalFS tiers, and the cache budget
(claim C2)

An engine run starts from fresh tiers (NewLocalFS over empty roots) and
executes a sequence of engine reads and writes through the ChainFS
embedding above, each tier being a LocalFS.
-/

/-- An engine operation: ChainFS.Read or ChainFS.Write. -/
inductive EngineOp where
  | read (p : Path)
  | write (p : Path) (c : Content) (m : Mode)

/-- The chain of tiers for configs `cfgs` in states `sts`. -/
def mkChain (env : Env) (cfgs : List LCfg) (sts : List LState) :
    List (Tier LState) :=
  List.zipWith (fun cfg st => (mkTier env cfg, st)) cfgs sts

/-- One engine operation, returning the updated tier states. -/
def stepOp (env : Env) (cfgs : List LCfg) (sts : List LState) :
    EngineOp → List LState
  | .read p => ((chainRead (mkChain env cfgs sts) p).2.1).map Prod.snd
  | .write p c m =>
    ((chainWrite (mkChain env cfgs sts) p c m).2.1).map Prod.snd

/-- A run: fold the operations over the fresh initial states. -/
def runOps (env : Env) (cfgs : List LCfg) (ops : List EngineOp) :
    List LState :=
  ops.foldl (fun sts op => stepOp env cfgs sts op) (cfgs.map (fun _ => freshState))

/-- A content small enough for every cache budget of the chain. -/
def Bd (cfgs : List LCfg) (c : Content) : Prop :=
  ∀ cfg ∈ cfgs, cfg.role = Role.cache → c.length ≤ cfg.maxSize

/-- Every file of the backing store is tracked by exactly its size. -/
def Tracks (d : Disk) (es : List CacheEntry) : Prop :=
  ∀ p c, d p = some c →
    ∃ t, es.find? (fun e => e.path == p) = some ⟨p, c.length, t⟩

/-- Every file of the backing store is bounded by every cache budget. -/
def DiskBd (cfgs : List LCfg) (d : Disk) : Prop :=
  ∀ p c, d p = some c → Bd cfgs c

/-- The per-tier invariant: on the cache role the budget is respected,
tracked paths are distinct and track the disk exactly; on every role the
disk contents are bounded by every cache budget of the chain. -/
def TInv (cfgs : List LCfg) (cfg : LCfg) (s : LState) : Prop :=
  (cfg.role = Role.cache →
    sizeSum s.cache ≤ cfg.maxSize ∧
    (s.cache.map (·.path)).Nodup ∧
    Tracks s.disk s.cache) ∧
  DiskBd cfgs s.disk

lemma bd_nil (cfgs : List LCfg) : Bd cfgs [] := by
  intro cfg _ _
  simp

lemma tinv_fresh (cfgs : List LCfg) (cfg : LCfg) : TInv cfgs cfg freshState := by
  refine ⟨fun _ => ⟨by simp [freshState, sizeSum], by simp [freshState], ?_⟩, ?_⟩
  · intro p c h
    simp [freshState] at h
  · intro p c h
    simp [freshState] at h

lemma dropEntry_sublist (p : Path) :
    ∀ l : List CacheEntry, List.Sublist (dropEntry p l) l := by
  intro l
  induction l with
  | nil => simp [dropEntry]
  | cons e l ih =>
    unfold dropEntry
    by_cases h : e.path = p
    · simp only [h, if_true]
      exact (List.sublist_cons_self e l)
    · simp only [h, if_false]
      exact List.Sublist.cons₂ e ih

lemma sizeSum_sublist {l1 l2 : List CacheEntry} (h : List.Sublist l1 l2) :
    sizeSum l1 ≤ sizeSum l2 :=
  List.Sublist.sum_le_sum (h.map (·.size)) (fun a _ => Nat.zero_le a)

lemma sizeSum_le_of_mem {e : CacheEntry} {l : List CacheEntry} (h : e ∈ l) :
    e.size ≤ sizeSum l := by
  induction l with
  | nil => simp at h
  | cons x l ih =>
    rcases List.mem_cons.mp h with h | h
    · rw [h]
      simp [sizeSum]
    · have := ih h
      simp only [sizeSum, List.map_cons, List.sum_cons] at *
      omega

lemma not_mem_dropEntry (p : Path) :
    ∀ l : List CacheEntry, (l.map (·.path)).Nodup →
      p ∉ (dropEntry p l).map (·.path) := by
  intro l
  induction l with
  | nil => intro _; simp [dropEntry]
  | cons e l ih =>
    intro hnd
    unfold dropEntry
    by_cases h : e.path = p
    · simp only [h, if_true]
      intro hm
      rcases List.mem_map.mp hm with ⟨y, hy, hyp⟩
      have : e.path ∈ l.map (·.path) := by
        rw [h, ← hyp]
        exact List.mem_map.mpr ⟨y, hy, rfl⟩
      exact (List.nodup_cons.mp hnd).1 this
    · simp only [h, if_false, List.map_cons]
      intro hm
      rcases List.mem_cons.mp hm with hm | hm
      · exact h hm.symm
      · exact ih (List.nodup_cons.mp hnd).2 hm

lemma find?_dropEntry_ne (p q : Path) (hne : q ≠ p) :
    ∀ l : List CacheEntry,
      (dropEntry p l).find? (fun e => e.path == q) =
        l.find? (fun e => e.path == q) := by
  intro l
  induction l with
  | nil => rfl
  | cons e l ih =>
    unfold dropEntry
    by_cases h : e.path = p
    · simp only [h, if_true]
      have : (e.path == q) = false := by
        rw [h]
        simp only [beq_eq_false_iff_ne, ne_eq]
        intro hc
        exact hne hc.symm
      rw [List.find?_cons, this]
    · simp only [h, if_false]
      rw [List.find?_cons, List.find?_cons]
      by_cases hq : (e.path == q) = true
      · rw [hq]
      · rw [Bool.not_eq_true] at hq
        rw [hq, ih]

lemma sizeSum_dropEntry_le (p : Path) (l : List CacheEntry) :
    sizeSum (dropEntry p l) ≤ sizeSum l :=
  sizeSum_sublist (dropEntry_sublist p l)

lemma sizeSum_dropEntry_mem (p : Path) (sz t0 : Nat) :
    ∀ l : List CacheEntry, (l.map (·.path)).Nodup →
      (⟨p, sz, t0⟩ : CacheEntry) ∈ l →
      sizeSum (dropEntry p l) + sz = sizeSum l := by
  intro l
  induction l with
  | nil => intro _ h; simp at h
  | cons e l ih =>
    intro hnd hmem
    unfold dropEntry
    by_cases h : e.path = p
    · simp only [h, if_true]
      have he : e = ⟨p, sz, t0⟩ := by
        rcases List.mem_cons.mp hmem with hm | hm
        · exact hm.symm
        · exfalso
          have : e.path ∈ l.map (·.path) := by
            rw [h]
            exact List.mem_map.mpr ⟨⟨p, sz, t0⟩, hm, rfl⟩
          exact (List.nodup_cons.mp hnd).1 this
      rw [he]
      simp [sizeSum]
      omega
    · simp only [h, if_false]
      have hm : (⟨p, sz, t0⟩ : CacheEntry) ∈ l := by
        rcases List.mem_cons.mp hmem with hm | hm
        · exact absurd (congrArg CacheEntry.path hm) (by simpa using fun hc => h hc.symm)
        · exact hm
      have := ih (List.nodup_cons.mp hnd).2 hm
      simp only [sizeSum, List.map_cons, List.sum_cons] at *
      omega

lemma removeIdx_sublist : ∀ (l : List CacheEntry) (i : Nat),
    List.Sublist (removeIdx l i) l := by
  intro l
  induction l with
  | nil => intro i; simp [removeIdx]
  | cons e l ih =>
    intro i
    cases i with
    | zero => exact List.sublist_cons_self e l
    | succ i => exact List.Sublist.cons₂ e (ih i)

lemma removeIdx_length : ∀ (l : List CacheEntry) (i : Nat), i < l.length →
    (removeIdx l i).length + 1 = l.length := by
  intro l
  induction l with
  | nil => intro i h; simp at h
  | cons e l ih =>
    intro i h
    cases i with
    | zero => rfl
    | succ i =>
      have := ih i (by simpa using h)
      simp only [removeIdx, List.length_cons]
      omega

lemma find?_removeIdx (pr : CacheEntry → Bool) :
    ∀ (l : List CacheEntry) (i : Nat) (e : CacheEntry), l[i]? = some e →
      pr e = false → (removeIdx l i).find? pr = l.find? pr := by
  intro l
  induction l with
  | nil => intro i e h; simp at h
  | cons x l ih =>
    intro i e h hpr
    cases i with
    | zero =>
      have hx : x = e := by simpa using h
      subst hx
      rw [show removeIdx (x :: l) 0 = l from rfl, List.find?_cons, hpr]
    | succ i =>
      have h' : l[i]? = some e := by simpa using h
      rw [show removeIdx (x :: l) (i + 1) = x :: removeIdx l i from rfl]
      rw [List.find?_cons, List.find?_cons]
      by_cases hx : pr x = true
      · rw [hx]
      · rw [Bool.not_eq_true] at hx
        rw [hx, ih i e h' hpr]

lemma sizeSum_append_single (l : List CacheEntry) (e : CacheEntry) :
    sizeSum (l ++ [e]) = sizeSum l + e.size := by
  simp [sizeSum]

lemma touch_cache (s : LState) (p : Path) (n : Nat)
    (hnd : (s.cache.map (·.path)).Nodup) :
    ((touch p n s).cache.map (·.path)).Nodup ∧
    ((touch p n s).cache.find? (fun e => e.path == p) = some ⟨p, n, s.clock⟩) ∧
    (∀ q, q ≠ p → (touch p n s).cache.find? (fun e => e.path == q) =
      s.cache.find? (fun e => e.path == q)) ∧
    sizeSum (touch p n s).cache = sizeSum (dropEntry p s.cache) + n := by
  have hnd' : ((dropEntry p s.cache).map (·.path)).Nodup :=
    hnd.sublist ((dropEntry_sublist p s.cache).map (·.path))
  have hnp := not_mem_dropEntry p s.cache hnd
  have hfnone : (dropEntry p s.cache).find? (fun e => e.path == p) = none := by
    rw [List.find?_eq_none]
    intro e he hb
    exact hnp (List.mem_map.mpr ⟨e, he, by simpa using hb⟩)
  refine ⟨?_, ?_, ?_, ?_⟩
  · show (((dropEntry p s.cache) ++ [(⟨p, n, s.clock⟩ : CacheEntry)]).map (·.path)).Nodup
    rw [List.map_append]
    refine List.Nodup.append hnd' (by simp) ?_
    intro a ha hb
    simp at hb
    rw [hb] at ha
    exact hnp ha
  · show ((dropEntry p s.cache) ++ [(⟨p, n, s.clock⟩ : CacheEntry)]).find?
      (fun e => e.path == p) = some ⟨p, n, s.clock⟩
    rw [List.find?_append, hfnone]
    simp
  · intro q hq
    show ((dropEntry p s.cache) ++ [(⟨p, n, s.clock⟩ : CacheEntry)]).find?
      (fun e => e.path == q) = s.cache.find? (fun e => e.path == q)
    rw [List.find?_append, find?_dropEntry_ne p q hq]
    rcases hf : s.cache.find? (fun e => e.path == q) with _ | a
    · have hsg : ([(⟨p, n, s.clock⟩ : CacheEntry)].find?
          (fun e => e.path == q)) = none := by
        rw [List.find?_eq_none]
        intro e he hb
        simp at he
        rw [he] at hb
        simp at hb
        exact hq hb.symm
      rw [hf, hsg]
      rfl
    · rw [hf]
      rfl
  · exact sizeSum_append_single _ _

lemma lfsRead_inv (cfgs : List LCfg) (cfg : LCfg) (s : LState) (p : Path)
    (hinv : TInv cfgs cfg s) :
    TInv cfgs cfg (lfsRead cfg s p).2 ∧
    ((lfsRead cfg s p).1.1 = none → Bd cfgs (lfsRead cfg s p).1.2) := by
  unfold lfsRead
  by_cases hg : cfg.canLock ∧ (lfsIsLocked cfg s p).2.1 = true ∧
      ((lfsIsLocked cfg s p).2.2 = LockType.write ∨
       (lfsIsLocked cfg s p).2.2 = LockType.exclusive)
  · rw [if_pos hg]
    exact ⟨hinv, fun h => absurd h (by simp)⟩
  · rw [if_neg hg]
    rcases hd : s.disk p with _ | c
    · exact ⟨hinv, fun h => absurd h (by simp)⟩
    · have hbd : Bd cfgs c := hinv.2 p c hd
      by_cases hrole : cfg.role = Role.cache
      · simp only [hrole, if_true]
        obtain ⟨hsum, hnd, htr⟩ := hinv.1 hrole
        obtain ⟨hnd', hfp, hfq, hsum'⟩ := touch_cache s p c.length hnd
        obtain ⟨t, hft⟩ := htr p c hd
        have hmem : (⟨p, c.length, t⟩ : CacheEntry) ∈ s.cache :=
          List.mem_of_find?_eq_some hft
        have hdrop := sizeSum_dropEntry_mem p c.length t s.cache hnd hmem
        refine ⟨⟨fun _ => ⟨?_, hnd', ?_⟩, ?_⟩, fun _ => hbd⟩
        · rw [hsum']
          omega
        · intro q c' hq
          have hq' : s.disk q = some c' := hq
          by_cases hqp : q = p
          · subst hqp
            have hc' : c = c' := by
              rw [hd] at hq'
              exact Option.some.inj hq'
            subst hc'
            exact ⟨s.clock, hfp⟩
          · obtain ⟨t', hft'⟩ := htr q c' hq'
            exact ⟨t', by rw [hfq q hqp]; exact hft'⟩
        · intro q c' hq
          exact hinv.2 q c' hq
      · simp only [hrole, Bool.false_eq_true, if_false]
        exact ⟨hinv, fun _ => hbd⟩

/-- os.Remove either fails leaving the disk unchanged, or succeeds
deleting exactly the path. -/
lemma osRemove_cases (env : Env) (d : Disk) (p : Path) :
    (∃ e, osRemove env d p = (some e, d)) ∨
    osRemove env d p = (none, fun q => if q = p then none else d q) := by
  unfold osRemove
  rcases d p with _ | c
  · exact Or.inl ⟨_, rfl⟩
  · by_cases ho : env.removeFails p
    · exact Or.inl ⟨"remove " ++ p ++ ": io error", by simp only [ho, if_true]⟩
    · refine Or.inr ?_
      simp only [ho, Bool.false_eq_true, if_false]

/-- Invariant preservation through the eviction loop, together with the
budget postcondition on clean exit: with fuel at least the entry count,
a nil return means either the needed bytes fit or the list is empty. -/
lemma evictLoop_inv (env : Env) (cfgs : List LCfg) (maxSize needed : Nat) :
    ∀ (fuel : Nat) (d : Disk) (es : List CacheEntry),
      (es.map (·.path)).Nodup → Tracks d es → DiskBd cfgs d →
      es.length ≤ fuel →
      ((((evictLoop env maxSize needed fuel d es (sizeSum es)).2.2).map
        (·.path)).Nodup ∧
      Tracks (evictLoop env maxSize needed fuel d es (sizeSum es)).2.1
        (evictLoop env maxSize needed fuel d es (sizeSum es)).2.2 ∧
      DiskBd cfgs (evictLoop env maxSize needed fuel d es (sizeSum es)).2.1 ∧
      sizeSum (evictLoop env maxSize needed fuel d es (sizeSum es)).2.2 ≤
        sizeSum es ∧
      ((evictLoop env maxSize needed fuel d es (sizeSum es)).1 = none →
        sizeSum (evictLoop env maxSize needed fuel d es (sizeSum es)).2.2 +
          needed ≤ maxSize ∨
        (evictLoop env maxSize needed fuel d es (sizeSum es)).2.2 = [])) := by
  intro fuel
  induction fuel with
  | zero =>
    intro d es hnd htr hdb hlen
    have hes : es = [] := List.length_eq_zero.mp (Nat.le_zero.mp hlen)
    subst hes
    exact ⟨by exact List.nodup_nil, htr, hdb, le_refl _, fun _ => Or.inr rfl⟩
  | succ fuel ih =>
    intro d es hnd htr hdb hlen
    by_cases hc : sizeSum es + needed > maxSize ∧ es ≠ []
    · have hne := hc.2
      have hlt : oldestIdx es < es.length := by
        rw [oldestIdx_eq_pickLRU es hne]
        exact pickLRU_lt_length es hne
      rcases hgi : es[oldestIdx es]? with _ | e0
      · rw [List.getElem?_eq_none_iff] at hgi
        omega
      · have hgD : (es[oldestIdx es]?).getD ⟨"", 0, 0⟩ = e0 := by
          rw [hgi]; rfl
        simp only [evictLoop, hc.1, hc.2, ne_eq, not_false_iff, true_and,
          and_true, and_self, if_true, hgD]
        rcases osRemove_cases env d e0.path with ⟨err, hosr⟩ | hosr
        · rw [hosr]
          exact ⟨hnd, htr, hdb, le_refl _,
            fun hcon => Option.noConfusion hcon⟩
        · rw [hosr]
          have hsz : sizeSum es - e0.size =
              sizeSum (removeIdx es (oldestIdx es)) := by
            have h1 := sizeSum_removeIdx es (oldestIdx es) hlt
            rw [hgi] at h1
            simp at h1
            omega
          have hnd2 : ((removeIdx es (oldestIdx es)).map (·.path)).Nodup :=
            hnd.sublist ((removeIdx_sublist es (oldestIdx es)).map (·.path))
          have htr2 : Tracks (fun q => if q = e0.path then none else d q)
              (removeIdx es (oldestIdx es)) := by
            intro q c hq
            have hq2 : (if q = e0.path then none else d q) = some c := hq
            by_cases hqe : q = e0.path
            · rw [if_pos hqe] at hq2
              exact absurd hq2 (by simp)
            · rw [if_neg hqe] at hq2
              obtain ⟨t, hft⟩ := htr q c hq2
              refine ⟨t, ?_⟩
              rw [find?_removeIdx _ es (oldestIdx es) e0 hgi
                (by simp only [beq_eq_false_iff_ne, ne_eq]
                    exact fun hcon => hqe hcon.symm)]
              exact hft
          have hdb2 : DiskBd cfgs (fun q => if q = e0.path then none else d q) := by
            intro q c hq
            have hq2 : (if q = e0.path then none else d q) = some c := hq
            by_cases hqe : q = e0.path
            · rw [if_pos hqe] at hq2
              exact absurd hq2 (by simp)
            · rw [if_neg hqe] at hq2
              exact hdb q c hq2
          have hlen2 : (removeIdx es (oldestIdx es)).length ≤ fuel := by
            have := removeIdx_length es (oldestIdx es) hlt
            omega
          have hrec := ih (fun q => if q = e0.path then none else d q)
            (removeIdx es (oldestIdx es)) hnd2 htr2 hdb2 hlen2
          rw [hsz]
          refine ⟨hrec.1, hrec.2.1, hrec.2.2.1, ?_, hrec.2.2.2.2⟩
          calc sizeSum (evictLoop env maxSize needed fuel
                (fun q => if q = e0.path then none else d q)
                (removeIdx es (oldestIdx es))
                (sizeSum (removeIdx es (oldestIdx es)))).2.2
              ≤ sizeSum (removeIdx es (oldestIdx es)) := hrec.2.2.2.1
            _ ≤ sizeSum es := sizeSum_sublist (removeIdx_sublist es (oldestIdx es))
    · simp only [evictLoop, hc, if_false]
      refine ⟨hnd, htr, hdb, le_refl _, fun _ => ?_⟩
      rcases Decidable.not_and_iff_or_not.mp hc with h | h
      · exact Or.inl (by omega)
      · exact Or.inr (by simpa using h)

/-- Invariant preservation through ensureCacheSpace on a cache tier. -/
lemma ensureCacheSpace_inv (env : Env) (cfgs : List LCfg) (cfg : LCfg)
    (needed : Nat) (s : LState) (hinv : TInv cfgs cfg s)
    (hrole : cfg.role = Role.cache) :
    TInv cfgs cfg (ensureCacheSpace env cfg needed s).2 ∧
    ((ensureCacheSpace env cfg needed s).2).clock = s.clock ∧
    ((ensureCacheSpace env cfg needed s).1 = none →
      sizeSum ((ensureCacheSpace env cfg needed s).2).cache + needed ≤
        cfg.maxSize ∨
      ((ensureCacheSpace env cfg needed s).2).cache = []) := by
  obtain ⟨hsum, hnd, htr⟩ := hinv.1 hrole
  have hev := evictLoop_inv env cfgs cfg.maxSize needed s.cache.length
    s.disk s.cache hnd htr hinv.2 (le_refl _)
  unfold ensureCacheSpace
  simp only [hrole, if_true]
  refine ⟨⟨fun _ => ⟨?_, hev.1, hev.2.1⟩, hev.2.2.1⟩, by trivial, hev.2.2.2.2⟩
  calc sizeSum (evictLoop env cfg.maxSize needed s.cache.length s.disk
        s.cache (sizeSum s.cache)).2.2
      ≤ sizeSum s.cache := hev.2.2.2.1
    _ ≤ cfg.maxSize := hsum

/-- Committing a bounded content into a cache tier state whose budget
can accommodate it (post-eviction) preserves the invariant. -/
lemma write_commit_inv (cfgs : List LCfg) (cfg : LCfg) (s' : LState)
    (p : Path) (c : Content) (hmem : cfg ∈ cfgs) (hbd : Bd cfgs c)
    (hrole : cfg.role = Role.cache) (hinv' : TInv cfgs cfg s')
    (hpost' : sizeSum s'.cache + c.length ≤ cfg.maxSize ∨ s'.cache = []) :
    TInv cfgs cfg (touch p c.length
      ⟨fun q => if q = p then some c else s'.disk q,
       s'.cache, s'.locks, s'.clock⟩) := by
  obtain ⟨hsum', hnd', htr'⟩ := hinv'.1 hrole
  obtain ⟨hndT, hfp, hfq, hsumT⟩ := touch_cache
    ⟨fun q => if q = p then some c else s'.disk q,
     s'.cache, s'.locks, s'.clock⟩ p c.length hnd'
  refine ⟨fun _ => ⟨?_, hndT, ?_⟩, ?_⟩
  · rw [hsumT]
    have hdle : sizeSum (dropEntry p s'.cache) ≤ sizeSum s'.cache :=
      sizeSum_dropEntry_le p s'.cache
    rcases hpost' with h | h
    · have hch : sizeSum (dropEntry p
          (⟨fun q => if q = p then some c else s'.disk q,
            s'.cache, s'.locks, s'.clock⟩ : LState).cache) =
          sizeSum (dropEntry p s'.cache) := rfl
      rw [hch]
      omega
    · have hch : dropEntry p
          (⟨fun q => if q = p then some c else s'.disk q,
            s'.cache, s'.locks, s'.clock⟩ : LState).cache = [] := by
        show dropEntry p s'.cache = []
        rw [h]
        rfl
      rw [hch]
      have := hbd cfg hmem hrole
      have hz : sizeSum [] = 0 := rfl
      rw [hz]
      omega
  · intro q c' hq
    have hq2 : (if q = p then some c else s'.disk q) = some c' := hq
    by_cases hqp : q = p
    · subst hqp
      rw [if_pos rfl] at hq2
      have hc' : c = c' := Option.some.inj hq2
      subst hc'
      exact ⟨s'.clock, hfp⟩
    · rw [if_neg hqp] at hq2
      obtain ⟨t, hft⟩ := htr' q c' hq2
      exact ⟨t, by rw [hfq q hqp]; exact hft⟩
  · intro q c' hq
    have hq2 : (if q = p then some c else s'.disk q) = some c' := hq
    by_cases hqp : q = p
    · subst hqp
      rw [if_pos rfl] at hq2
      have hc' : c = c' := Option.some.inj hq2
      subst hc'
      exact hbd
    · rw [if_neg hqp] at hq2
      exact hinv'.2 q c' hq2

/-- Invariant preservation through the write body (ensure + file write +
cache touch), for contents bounded by every cache budget. -/
lemma lfsWriteBody_inv (env : Env) (cfgs : List LCfg) (cfg : LCfg)
    (s : LState) (p : Path) (c : Content) (hinv : TInv cfgs cfg s)
    (hmem : cfg ∈ cfgs) (hbd : Bd cfgs c) :
    TInv cfgs cfg (lfsWriteBody env cfg s p c).2 := by
  unfold lfsWriteBody
  by_cases hrole : cfg.role = Role.cache
  · obtain ⟨hinv', hclk, hpost⟩ :=
      ensureCacheSpace_inv env cfgs cfg c.length s hinv hrole
    simp only [hrole, if_true]
    rcases hens : ensureCacheSpace env cfg c.length s with ⟨e?, s'⟩
    rw [hens] at hinv' hpost
    cases e? with
    | some e => exact hinv'
    | none =>
      by_cases hwf : env.writeFails p
      · simp only [hwf, if_true]
        exact hinv'
      · simp only [hwf, Bool.false_eq_true, if_false, hrole, if_true]
        exact write_commit_inv cfgs cfg s' p c hmem hbd hrole hinv' (hpost rfl)
  · simp only [hrole, Bool.false_eq_true, if_false]
    by_cases hwf : env.writeFails p
    · simp only [hwf, if_true]
      exact hinv
    · simp only [hwf, Bool.false_eq_true, if_false]
      refine ⟨fun hc => absurd hc hrole, ?_⟩
      intro q c' hq
      have hq2 : (if q = p then some c else s.disk q) = some c' := hq
      by_cases hqp : q = p
      · subst hqp
        rw [if_pos rfl] at hq2
        have hc' : c = c' := Option.some.inj hq2
        subst hc'
        exact hbd
      · rw [if_neg hqp] at hq2
        exact hinv.2 q c' hq2

/-- Invariant preservation through LocalFS.Write. -/
lemma lfsWrite_inv (env : Env) (cfgs : List LCfg) (cfg : LCfg) (s : LState)
    (p : Path) (c : Content) (m : Mode) (hinv : TInv cfgs cfg s)
    (hmem : cfg ∈ cfgs) (hbd : Bd cfgs c) :
    TInv cfgs cfg (lfsWrite env cfg s p c m).2 := by
  unfold lfsWrite
  by_cases hu : cfg.canUpdate
  · simp only [hu, if_true]
    rcases hlk : (if cfg.canLock = true then s.locks.lookup p else none)
      with _ | lk
    · exact lfsWriteBody_inv env cfgs cfg s p c hinv hmem hbd
    · show TInv cfgs cfg (if lk.processId = env.selfPid ∧
          (lk.lockType = LockType.write ∨ lk.lockType = LockType.exclusive)
        then lfsWriteBody env cfg s p c
        else if lk.lockType = LockType.read then
          (some "file is locked for reading", s)
        else (some "file is locked by another process", s)).2
      by_cases hown : lk.processId = env.selfPid ∧
        (lk.lockType = LockType.write ∨ lk.lockType = LockType.exclusive)
      · rw [if_pos hown]
        exact lfsWriteBody_inv env cfgs cfg s p c hinv hmem hbd
      · rw [if_neg hown]
        by_cases hrd : lk.lockType = LockType.read
        · rw [if_pos hrd]
          exact hinv
        · rw [if_neg hrd]
          exact hinv
  · simp only [hu, Bool.false_eq_true, if_false]
    exact hinv

/-!
### Lifting the per-tier invariant through the chain operations
-/

lemma mkChain_cons (env : Env) (cfg : LCfg) (cfgs : List LCfg) (st : LState)
    (sts : List LState) :
    mkChain env (cfg :: cfgs) (st :: sts) =
      (mkTier env cfg, st) :: mkChain env cfgs sts := rfl

lemma mkChain_get (env : Env) :
    ∀ (cfgs : List LCfg) (sts : List LState) (j : Nat) (t : Tier LState),
      (mkChain env cfgs sts)[j]? = some t →
      ∃ cfg st, cfgs[j]? = some cfg ∧ sts[j]? = some st ∧
        t = (mkTier env cfg, st) := by
  intro cfgs
  induction cfgs with
  | nil => intro sts j t h; simp [mkChain] at h
  | cons cfg cfgs ih =>
    intro sts j t h
    cases sts with
    | nil => simp [mkChain] at h
    | cons st sts =>
      rw [mkChain_cons] at h
      cases j with
      | zero =>
        refine ⟨cfg, st, by simp, by simp, ?_⟩
        simpa using h.symm
      | succ j =>
        simp only [List.getElem?_cons_succ] at h ⊢
        exact ih sts j t h

lemma mkChain_set (env : Env) :
    ∀ (cfgs : List LCfg) (sts : List LState) (j : Nat) (cfg : LCfg)
      (st' : LState), cfgs[j]? = some cfg →
      (mkChain env cfgs sts).set j (mkTier env cfg, st') =
        mkChain env cfgs (sts.set j st') := by
  intro cfgs
  induction cfgs with
  | nil => intro sts j cfg st' h; simp at h
  | cons c0 cfgs ih =>
    intro sts j cfg st' h
    cases sts with
    | nil => simp [mkChain]
    | cons st sts =>
      cases j with
      | zero =>
        have hc : c0 = cfg := by simpa using h
        subst hc
        rfl
      | succ j =>
        have h' : cfgs[j]? = some cfg := by simpa using h
        show (mkTier env c0, st) :: (mkChain env cfgs sts).set j (mkTier env cfg, st') =
          (mkTier env c0, st) :: mkChain env cfgs (sts.set j st')
        rw [ih sts j cfg st' h']

lemma forall₂_get {R : LCfg → LState → Prop} :
    ∀ {cfgs : List LCfg} {sts : List LState}, List.Forall₂ R cfgs sts →
      ∀ {j : Nat} {cfg : LCfg} {st : LState}, cfgs[j]? = some cfg →
        sts[j]? = some st → R cfg st := by
  intro cfgs sts h
  induction h with
  | nil => intro j cfg st h1; simp at h1
  | @cons a b l1 l2 hR hall ih =>
    intro j cfg st h1 h2
    cases j with
    | zero =>
      have e1 : a = cfg := by simpa using h1
      have e2 : b = st := by simpa using h2
      rw [← e1, ← e2]
      exact hR
    | succ j =>
      exact ih (by simpa using h1) (by simpa using h2)

lemma forall₂_set {R : LCfg → LState → Prop} :
    ∀ {cfgs : List LCfg} {sts : List LState}, List.Forall₂ R cfgs sts →
      ∀ (j : Nat) {cfg : LCfg} (st' : LState), cfgs[j]? = some cfg →
        R cfg st' → List.Forall₂ R cfgs (sts.set j st') := by
  intro cfgs sts h
  induction h with
  | nil => intro j cfg st' h1; simp at h1
  | @cons a b l1 l2 hR hall ih =>
    intro j cfg st' h1 hR'
    cases j with
    | zero =>
      have e1 : a = cfg := by simpa using h1
      subst e1
      exact List.Forall₂.cons hR' hall
    | succ j =>
      exact List.Forall₂.cons hR (ih j st' (by simpa using h1) hR')

lemma mkChain_map_snd (env : Env) :
    ∀ (cfgs : List LCfg) (sts : List LState), cfgs.length = sts.length →
      (mkChain env cfgs sts).map Prod.snd = sts := by
  intro cfgs
  induction cfgs with
  | nil =>
    intro sts h
    have : sts = [] := List.length_eq_zero.mp h.symm
    subst this
    rfl
  | cons cfg cfgs ih =>
    intro sts h
    cases sts with
    | nil => simp at h
    | cons st sts =>
      rw [mkChain_cons, List.map_cons, ih sts (by simpa using h)]

/-- The chain walk of Read preserves the invariant tier by tier, and a
successful result carries a bounded content. -/
lemma walk_inv (env : Env) (cfgs₀ : List LCfg) (p : Path) :
    ∀ (cfgs : List LCfg) (sts : List LState) (le : Option String),
      List.Forall₂ (TInv cfgs₀) cfgs sts →
      ∃ res sts' idx,
        walkRead p (mkChain env cfgs sts) le = (res, mkChain env cfgs sts', idx) ∧
        List.Forall₂ (TInv cfgs₀) cfgs sts' ∧
        (res.1 = none → Bd cfgs₀ res.2) := by
  intro cfgs
  induction cfgs with
  | nil =>
    intro sts le hall
    have : sts = [] := by cases hall; rfl
    subst this
    exact ⟨(le, []), [], none, rfl, List.Forall₂.nil, fun _ => bd_nil cfgs₀⟩
  | cons cfg cfgs ih =>
    intro sts le hall
    cases sts with
    | nil => cases hall
    | cons st sts =>
      have hall' := List.forall₂_cons.mp hall
      rcases hr : lfsRead cfg st p with ⟨⟨e?, c0⟩, st2⟩
      have hread := lfsRead_inv cfgs₀ cfg st p hall'.1
      rw [hr] at hread
      cases e? with
      | none =>
        refine ⟨(none, c0), st2 :: sts, some 0, ?_, ?_, ?_⟩
        · rw [mkChain_cons]
          show walkRead p ((mkTier env cfg, st) :: mkChain env cfgs sts) le = _
          unfold walkRead
          simp only [mkTier, hr]
          rfl
        · exact List.Forall₂.cons hread.1 hall'.2
        · intro _
          exact hread.2 rfl
      | some e0 =>
        obtain ⟨res', sts', idx', hwalk, hall2, hbd2⟩ := ih sts (some e0) hall'.2
        refine ⟨res', st2 :: sts', idx'.map (· + 1), ?_,
          List.Forall₂.cons hread.1 hall2, hbd2⟩
        rw [mkChain_cons]
        show walkRead p ((mkTier env cfg, st) :: mkChain env cfgs sts) le = _
        unfold walkRead
        simp only [mkTier, hr, hwalk]
        rfl

/-- Back-propagation preserves the invariant for a bounded content. -/
lemma prop_inv (env : Env) (cfgs₀ : List LCfg) (p : Path) (c : Content)
    (hbd : Bd cfgs₀ c) :
    ∀ (i : Nat) (cfgs : List LCfg) (sts : List LState),
      List.Forall₂ (TInv cfgs₀) cfgs sts →
      (∀ cfg ∈ cfgs, cfg ∈ cfgs₀) →
      ∃ sts', (propLoop p c (mkChain env cfgs sts) i).1 = mkChain env cfgs sts' ∧
        List.Forall₂ (TInv cfgs₀) cfgs sts' := by
  intro i
  induction i with
  | zero =>
    intro cfgs sts hall _
    exact ⟨sts, rfl, hall⟩
  | succ j ih =>
    intro cfgs sts hall hsub
    show ∃ sts', (propLoop p c
      (writeTierAt (mkChain env cfgs sts) j p c 420).1 j).1 = _ ∧ _
    rcases hj : (mkChain env cfgs sts)[j]? with _ | t
    · have hw : writeTierAt (mkChain env cfgs sts) j p c 420 =
          (mkChain env cfgs sts, []) := by
        unfold writeTierAt
        rw [hj]
      rw [hw]
      exact ih cfgs sts hall hsub
    · obtain ⟨cfg, st, hcj, hsj, ht⟩ := mkChain_get env cfgs sts j t hj
      subst ht
      by_cases hu : cfg.canUpdate
      · have hw : (writeTierAt (mkChain env cfgs sts) j p c 420).1 =
            mkChain env cfgs (sts.set j (lfsWrite env cfg st p c 420).2) := by
          unfold writeTierAt
          rw [hj]
          show (if (mkTier env cfg).canUpdate = true then
              ((mkChain env cfgs sts).set j
                ((mkTier env cfg), ((mkTier env cfg).writeOp st p c 420).2),
               ([⟨j, p, c, 420⟩] : List WEvent))
            else (mkChain env cfgs sts, [])).1 = _
          rw [if_pos (show (mkTier env cfg).canUpdate = true from hu)]
          show (mkChain env cfgs sts).set j
            (mkTier env cfg, (lfsWrite env cfg st p c 420).2) = _
          exact mkChain_set env cfgs sts j cfg _ hcj
        rw [hw]
        have hinv := forall₂_get hall hcj hsj
        have hmem : cfg ∈ cfgs₀ := hsub cfg (List.getElem?_mem hcj)
        have hinv' := lfsWrite_inv env cfgs₀ cfg st p c 420 hinv hmem hbd
        exact ih cfgs (sts.set j (lfsWrite env cfg st p c 420).2)
          (forall₂_set hall j _ hcj hinv') hsub
      · have hw : writeTierAt (mkChain env cfgs sts) j p c 420 =
            (mkChain env cfgs sts, []) := by
          unfold writeTierAt
          rw [hj]
          show (if (mkTier env cfg).canUpdate = true then
              ((mkChain env cfgs sts).set j
                ((mkTier env cfg), ((mkTier env cfg).writeOp st p c 420).2),
               ([⟨j, p, c, 420⟩] : List WEvent))
            else (mkChain env cfgs sts, [])) = _
          rw [if_neg (show ¬(mkTier env cfg).canUpdate = true from hu)]
        rw [hw]
        exact ih cfgs sts hall hsub

/-- The fan-out of Write preserves the invariant for bounded contents. -/
lemma fanout_inv (env : Env) (cfgs₀ : List LCfg) (p : Path) (c : Content)
    (m : Mode) (hbd : Bd cfgs₀ c) :
    ∀ (cfgs : List LCfg) (sts : List LState) (i : Nat),
      List.Forall₂ (TInv cfgs₀) cfgs sts →
      (∀ cfg ∈ cfgs, cfg ∈ cfgs₀) →
      ∃ sts', (fanoutWrite p c m (mkChain env cfgs sts) i).2.1 =
          mkChain env cfgs sts' ∧
        List.Forall₂ (TInv cfgs₀) cfgs sts' := by
  intro cfgs
  induction cfgs with
  | nil =>
    intro sts i hall _
    have : sts = [] := by cases hall; rfl
    subst this
    exact ⟨[], rfl, List.Forall₂.nil⟩
  | cons cfg cfgs ih =>
    intro sts i hall hsub
    cases sts with
    | nil => cases hall
    | cons st sts =>
      have hall' := List.forall₂_cons.mp hall
      have hsub' : ∀ cfg' ∈ cfgs, cfg' ∈ cfgs₀ :=
        fun cfg' h => hsub cfg' (by simp [h])
      obtain ⟨sts', hfan, hall2⟩ := ih sts (i + 1) hall'.2 hsub'
      by_cases hu : cfg.canUpdate
      · have hinv' := lfsWrite_inv env cfgs₀ cfg st p c m hall'.1
          (hsub cfg (by simp)) hbd
        refine ⟨(lfsWrite env cfg st p c m).2 :: sts', ?_,
          List.Forall₂.cons hinv' hall2⟩
        rw [mkChain_cons]
        unfold fanoutWrite
        rw [if_pos (show (mkTier env cfg).canUpdate = true from hu)]
        show ((mkTier env cfg, (lfsWrite env cfg st p c m).2) ::
          (fanoutWrite p c m (mkChain env cfgs sts) (i + 1)).2.1) =
          (mkTier env cfg, (lfsWrite env cfg st p c m).2) ::
            mkChain env cfgs sts'
        rw [hfan]
      · refine ⟨st :: sts', ?_, List.Forall₂.cons hall'.1 hall2⟩
        rw [mkChain_cons]
        unfold fanoutWrite
        rw [if_neg (show ¬(mkTier env cfg).canUpdate = true from hu)]
        show ((mkTier env cfg, st) ::
          (fanoutWrite p c m (mkChain env cfgs sts) (i + 1)).2.1) =
          (mkTier env cfg, st) :: mkChain env cfgs sts'
        rw [hfan]

/-- ChainFS.Read preserves the invariant across the whole chain. -/
lemma chainRead_inv (env : Env) (cfgs₀ : List LCfg) (p : Path)
    (sts : List LState) (hall : List.Forall₂ (TInv cfgs₀) cfgs₀ sts) :
    ∃ sts', (chainRead (mkChain env cfgs₀ sts) p).2.1 = mkChain env cfgs₀ sts' ∧
      List.Forall₂ (TInv cfgs₀) cfgs₀ sts' := by
  unfold chainRead
  by_cases hlock : readLockBlocked (mkChain env cfgs₀ sts) p
  · rw [if_pos hlock]
    exact ⟨sts, rfl, hall⟩
  · rw [if_neg hlock]
    obtain ⟨res, sts₁, idx, hwalk, hall₁, hbd₁⟩ :=
      walk_inv env cfgs₀ p cfgs₀ sts none hall
    rw [hwalk]
    rcases res with ⟨e?, c⟩
    cases e? with
    | none =>
      cases idx with
      | none => exact ⟨sts₁, rfl, hall₁⟩
      | some i =>
        obtain ⟨sts₂, hprop, hall₂⟩ := prop_inv env cfgs₀ p c (hbd₁ rfl) i
          cfgs₀ sts₁ hall₁ (fun cfg h => h)
        exact ⟨sts₂, hprop, hall₂⟩
    | some e =>
      cases idx with
      | none => exact ⟨sts₁, rfl, hall₁⟩
      | some i => exact ⟨sts₁, rfl, hall₁⟩

/-- ChainFS.Write preserves the invariant across the whole chain, for a
content bounded by every cache budget. -/
lemma chainWrite_inv (env : Env) (cfgs₀ : List LCfg) (p : Path)
    (c : Content) (m : Mode) (hbd : Bd cfgs₀ c) (sts : List LState)
    (hall : List.Forall₂ (TInv cfgs₀) cfgs₀ sts) :
    ∃ sts', (chainWrite (mkChain env cfgs₀ sts) p c m).2.1 =
        mkChain env cfgs₀ sts' ∧
      List.Forall₂ (TInv cfgs₀) cfgs₀ sts' := by
  unfold chainWrite
  by_cases hlock : writeLockBlocked (mkChain env cfgs₀ sts) p
  · rw [if_pos hlock]
    exact ⟨sts, rfl, hall⟩
  · rw [if_neg hlock]
    obtain ⟨sts', hfan, hall'⟩ := fanout_inv env cfgs₀ p c m hbd cfgs₀ sts 0
      hall (fun cfg h => h)
    exact ⟨sts', hfan, hall'⟩

/-- Whether an engine operation writes a content bounded by every cache
budget (reads carry no content). -/
def opBd (cfgs : List LCfg) : EngineOp → Prop
  | .read _ => True
  | .write _ c _ => Bd cfgs c

lemma step_inv (env : Env) (cfgs₀ : List LCfg) (sts : List LState)
    (op : EngineOp) (hall : List.Forall₂ (TInv cfgs₀) cfgs₀ sts)
    (hop : opBd cfgs₀ op) :
    List.Forall₂ (TInv cfgs₀) cfgs₀ (stepOp env cfgs₀ sts op) := by
  have hlen := hall.length_eq
  cases op with
  | read p =>
    obtain ⟨sts', heq, hall'⟩ := chainRead_inv env cfgs₀ p sts hall
    show List.Forall₂ (TInv cfgs₀) cfgs₀
      (((chainRead (mkChain env cfgs₀ sts) p).2.1).map Prod.snd)
    rw [heq, mkChain_map_snd env cfgs₀ sts' hall'.length_eq]
    exact hall'
  | write p c m =>
    obtain ⟨sts', heq, hall'⟩ := chainWrite_inv env cfgs₀ p c m hop sts hall
    show List.Forall₂ (TInv cfgs₀) cfgs₀
      (((chainWrite (mkChain env cfgs₀ sts) p c m).2.1).map Prod.snd)
    rw [heq, mkChain_map_snd env cfgs₀ sts' hall'.length_eq]
    exact hall'

lemma runFold_inv (env : Env) (cfgs₀ : List LCfg) :
    ∀ (ops : List EngineOp) (sts : List LState),
      List.Forall₂ (TInv cfgs₀) cfgs₀ sts →
      (∀ op ∈ ops, opBd cfgs₀ op) →
      List.Forall₂ (TInv cfgs₀) cfgs₀
        (ops.foldl (fun sts op => stepOp env cfgs₀ sts op) sts) := by
  intro ops
  induction ops with
  | nil => intro sts hall _; exact hall
  | cons op ops ih =>
    intro sts hall hops
    exact ih (stepOp env cfgs₀ sts op)
      (step_inv env cfgs₀ sts op hall (hops op (by simp)))
      (fun op' h => hops op' (by simp [h]))

lemma fresh_forall₂ (cfgs₀ : List LCfg) :
    ∀ (l : List LCfg), List.Forall₂ (TInv cfgs₀) l (l.map fun _ => freshState) := by
  intro l
  induction l with
  | nil => exact List.Forall₂.nil
  | cons cfg l ih => exact List.Forall₂.cons (tinv_fresh cfgs₀ cfg) ih

/-- Claim C2 (amended): starting from fresh tiers, after any sequence of
engine reads and writes in which every written content fits within every
cache tier's budget, the sum of every cache tier's entry sizes is at
most its MaxSize. -/
theorem cache_budget_invariant (env : Env) (cfgs : List LCfg)
    (ops : List EngineOp) (hops : ∀ op ∈ ops, opBd cfgs op)
    (j : Nat) (cfg : LCfg) (st : LState) (hj : cfgs[j]? = some cfg)
    (hst : (runOps env cfgs ops)[j]? = some st)
    (hrole : cfg.role = Role.cache) :
    sizeSum st.cache ≤ cfg.maxSize := by
  have hall := runFold_inv env cfgs ops (cfgs.map fun _ => freshState)
    (fresh_forall₂ cfgs cfgs) hops
  have hinv : TInv cfgs cfg st := forall₂_get hall hj hst
  exact (hinv.1 hrole).1

/-- Environment with no OS failures for the C2 run theorems. -/
def c2Env : Env := ⟨fun _ => false, fun _ => false, 1⟩

/-- A one-tier chain: cache role, budget 1 byte, CanUpdate. -/
def c2CexCfgs : List LCfg := [⟨Role.cache, 1, true, false, false⟩]

/-- Claim C2 counterexample: a single engine write of a 2-byte content
on the fresh budget-1 cache chain returns success, yet afterwards the
cache tier's entry sizes sum to 2 > 1: ensureCacheSpace runs out of
entries to evict and gives up silently. -/
theorem cache_budget_cex :
    ((runOps c2Env c2CexCfgs [EngineOp.write "a" [0, 0] 420]).map
      (fun s => sizeSum s.cache)) = [2] ∧
    c2CexCfgs.map (·.maxSize) = [1] ∧
    c2CexCfgs.map (·.role) = [Role.cache] ∧
    (chainWrite (mkChain c2Env c2CexCfgs (c2CexCfgs.map fun _ => freshState))
      "a" [0, 0] 420).1 = none := by
  exact ⟨rfl, rfl, rfl, rfl⟩

/-- A one-tier chain: cache role, budget 2 bytes, CanUpdate. -/
def c2WitCfgs : List LCfg := [⟨Role.cache, 2, true, false, false⟩]

/-- Witness for the amended claim C2: a bounded write followed by a read
on the budget-2 cache chain keeps the entry sizes within budget. -/
theorem cache_budget_witness :
    sizeSum (((runOps c2Env c2WitCfgs
      [EngineOp.write "a" [5] 420, EngineOp.read "a"]).headD
        freshState).cache) ≤ 2 := by
  refine cache_budget_invariant c2Env c2WitCfgs
    [EngineOp.write "a" [5] 420, EngineOp.read "a"] ?_ 0
    ⟨Role.cache, 2, true, false, false⟩ _ rfl rfl rfl
  intro op hop
  rcases List.mem_cons.mp hop with h | h
  · rw [h]
    intro cfg hcfg _
    rcases List.mem_cons.mp hcfg with h2 | h2
    · rw [h2]
      decide
    · simp at h2
  · have h2 : op = EngineOp.read "a" := by simpa using h
    rw [h2]
    trivial

end GoSyncFS
